import Mathlib

/-!
Verification of the availability aggregation core (`aggregateSlots`,
`buildTimeline`) of the calfind repository, shallowly embedded in Lean.

The embedding mirrors the TypeScript source:
* JavaScript `Map` (insertion-ordered, `set` keeps the position of an
  existing key) is modelled as an association list with in-place update.
* JavaScript `Set` (insertion-ordered, `add` is idempotent, `delete`
  removes the element) is modelled as a duplicate-free list with
  append-if-absent insertion and `List.erase` deletion; `Array.from`
  of such a set is the list itself.
* `Array.prototype.sort` with a consistent comparator is a stable sort
  with respect to the comparator's "not greater" relation; we model it
  with a stable insertion sort (`sortBy`) and prove the ordering
  properties any stable sort satisfies.
* Clock times are `HH:MM` strings; `toMinutes` parses them exactly as
  the source does for well-formed inputs.  (In JavaScript a component
  that is not a number becomes `NaN`; here a component that fails to
  parse defaults to `0`.  The two agree on every well-formed `HH:MM`
  string, which is the data model's declared value space.)
-/

/-- `AvailabilitySlot` from `src/types`: a date-scoped time range. -/
structure AvailabilitySlot where
  date : String
  startTime : String
  endTime : String
deriving DecidableEq, Repr

/-- `ParticipantAvailability` restricted to the fields the aggregation
core reads (`id` and `slots`). -/
structure ParticipantAvailability where
  id : String
  slots : List AvailabilitySlot
deriving DecidableEq, Repr

/-- `AggregatedSlot`: a slot together with the ids of the participants
contributing it. -/
structure AggregatedSlot where
  date : String
  startTime : String
  endTime : String
  participantIds : List String
deriving DecidableEq, Repr

/-- `TimelineSegment`: a half-open minute range on one date with the
participants available throughout it. -/
structure TimelineSegment where
  startMinutes : Nat
  endMinutes : Nat
  participantIds : List String
deriving DecidableEq, Repr

/-- `const minutesInDay = 24 * 60`. -/
def minutesInDay : Nat := 24 * 60

/-- Split a character list at every occurrence of `sep`, modelling
`String.prototype.split` with a one-character separator. -/
def splitChars (sep : Char) : List Char → List (List Char)
  | [] => [[]]
  | c :: cs =>
      let rest := splitChars sep cs
      if c = sep then [] :: rest
      else (c :: rest.headD []) :: rest.tail

/-- Parse a run of decimal digits, modelling `Number(...)` on the pieces
of a well-formed time string (`none` on the empty or a non-digit piece,
where JavaScript would produce `NaN`). -/
def parseNat (piece : List Char) : Option Nat :=
  if piece = [] then none
  else piece.foldl (fun acc c =>
    match acc with
    | some n =>
        if '0' ≤ c ∧ c ≤ '9' then some (n * 10 + (c.toNat - '0'.toNat))
        else none
    | none => none) (some 0)

/-- `toMinutes`: split on `":"`, convert the first two pieces to numbers,
return `hours * 60 + minutes`. -/
def toMinutes (time : String) : Nat :=
  match (splitChars ':' time.data).map (fun piece => (parseNat piece).getD 0) with
  | hours :: minutes :: _ => hours * 60 + minutes
  | hours :: [] => hours * 60
  | [] => 0

/-- Association-list lookup, modelling `Map.get`. -/
def getEntry {α : Type} : List (String × α) → String → Option α
  | [], _ => none
  | (k, v) :: rest, key => if k = key then some v else getEntry rest key

/-- Association-list update, modelling `Map.set`: an existing key keeps
its position, a new key is appended at the end. -/
def setEntry {α : Type} : List (String × α) → String → α → List (String × α)
  | [], key, v => [(key, v)]
  | (k, w) :: rest, key, v =>
      if k = key then (key, v) :: rest else (k, w) :: setEntry rest key v

/-- Stable insertion of `x` into `l`: `x` is placed before the first
element that is not strictly below it (so among comparator-equal
elements the inserted element comes first, which is what inserting the
head of a list into its sorted tail requires for stability). -/
def insertBy {α : Type} (le : α → α → Bool) (x : α) : List α → List α
  | [] => [x]
  | y :: ys => if le y x && !(le x y) then y :: insertBy le x ys else x :: y :: ys

/-- Stable sort with respect to `le`, modelling `Array.prototype.sort`
with a consistent comparator (`le a b` meaning "comparator result is
not positive"). -/
def sortBy {α : Type} (le : α → α → Bool) : List α → List α
  | [] => []
  | x :: xs => insertBy le x (sortBy le xs)

/-- Key used by the aggregation map:
`` `${slot.date}_${slot.startTime}_${slot.endTime}` ``. -/
def slotKey (s : AvailabilitySlot) : String :=
  s.date ++ "_" ++ s.startTime ++ "_" ++ s.endTime

/-- One step of `aggregateSlots`' inner loop: process one slot of the
response with id `rid` against the aggregation map. -/
def aggStep (m : List (String × AggregatedSlot)) (rid : String)
    (s : AvailabilitySlot) : List (String × AggregatedSlot) :=
  let key := slotKey s
  match getEntry m key with
  | some existing =>
      setEntry m key { existing with participantIds := existing.participantIds ++ [rid] }
  | none =>
      setEntry m key ⟨s.date, s.startTime, s.endTime, [rid]⟩

/-- The comparator of `aggregateSlots`' final sort: by `date`
(`localeCompare`, modelled as lexicographic string order), then by
`startTime` on equal dates. -/
def aggLE (a b : AggregatedSlot) : Bool :=
  if a.date = b.date then a.startTime ≤ b.startTime else a.date < b.date

/-- `aggregateSlots` from the source: fold every slot of every response
into the keyed map, then return the map's values sorted by date then
start time. -/
def aggregateSlots (responses : List ParticipantAvailability) : List AggregatedSlot :=
  let m := responses.foldl (fun m r => r.slots.foldl (fun m s => aggStep m r.id s) m) []
  sortBy aggLE (m.map Prod.snd)

/-- Sweep event type: a slot start or a slot end (`"start" | "end"` in
the source; `end` is a reserved word here, so the end constructor is
named `stop`). -/
inductive EventType where
  | start : EventType
  | stop : EventType
deriving DecidableEq, Repr

/-- A sweep event: `{ minutes, type, participantId }`. -/
structure Event where
  minutes : Nat
  type : EventType
  participantId : String
deriving DecidableEq, Repr

/-- Process one slot of the response with id `rid` against the per-date
event map: skip it if `end <= start || start >= minutesInDay`, otherwise
push its start event (clamped below by `0`) and its end event (clamped
above by `minutesInDay`) onto the date's event list. -/
def pushSlotEvents (m : List (String × List Event)) (rid : String)
    (s : AvailabilitySlot) : List (String × List Event) :=
  let start := toMinutes s.startTime
  let en := toMinutes s.endTime
  if en ≤ start ∨ start ≥ minutesInDay then m
  else
    let safeEnd := min en minutesInDay
    let events := (getEntry m s.date).getD []
    setEntry m s.date
      (events ++ [⟨max 0 start, EventType.start, rid⟩, ⟨safeEnd, EventType.stop, rid⟩])

/-- The per-date event map built by `buildTimeline`'s first phase. -/
def collectEvents (responses : List ParticipantAvailability) :
    List (String × List Event) :=
  responses.foldl (fun m r => r.slots.foldl (fun m s => pushSlotEvents m r.id s) m) []

/-- `buildTimeline`'s event comparator as a "not greater" relation:
minutes ascending, and on equal minutes end events sort before start
events (equal types compare equal). -/
def eventLE (a b : Event) : Bool :=
  if a.minutes = b.minutes then
    if a.type = b.type then true
    else a.type = EventType.stop
  else a.minutes < b.minutes

/-- The sweep state: the active participant set (as an insertion-ordered
duplicate-free list, modelling a JavaScript `Set`), the previous
boundary minute, and the segments emitted so far. -/
structure SweepState where
  active : List String
  prevMinute : Nat
  segments : List TimelineSegment
deriving DecidableEq, Repr

/-- One sweep step: before applying the event, if the active set is
non-empty and the event's minute exceeds the previous boundary, emit the
segment `[prevMinute, event.minutes)` tagged with the active set; then
add the participant on a start event or remove it on an end event, and
advance the boundary. -/
def applyEvent (st : SweepState) (e : Event) : SweepState :=
  let segments :=
    if st.active.length > 0 ∧ e.minutes > st.prevMinute then
      st.segments ++ [⟨st.prevMinute, e.minutes, st.active⟩]
    else st.segments
  let active :=
    match e.type with
    | EventType.start =>
        if e.participantId ∈ st.active then st.active
        else st.active ++ [e.participantId]
    | EventType.stop => st.active.erase e.participantId
  ⟨active, e.minutes, segments⟩

/-- The per-date sweep: sort the date's events, seed the boundary with
the first event's minute (`sorted[0]?.minutes ?? 0`), and fold the
events through `applyEvent`. -/
def sweepDate (events : List Event) : List TimelineSegment :=
  let sorted := sortBy eventLE events
  (sorted.foldl applyEvent ⟨[], ((sorted.head?).map Event.minutes).getD 0, []⟩).segments

/-- `buildTimeline` from the source: group events by date, then sweep
each date's events.  The result models the `TimelineByDate` record as an
insertion-ordered association list. -/
def buildTimeline (responses : List ParticipantAvailability) :
    List (String × List TimelineSegment) :=
  (collectEvents responses).map (fun entry => (entry.fst, sweepDate entry.snd))

/-- The segment list `buildTimeline` produces for one date (the empty
list when the date is absent from the record). -/
def timelineSegments (responses : List ParticipantAvailability) (d : String) :
    List TimelineSegment :=
  (getEntry (buildTimeline responses) d).getD []

/-- A slot passes `buildTimeline`'s validity test: its end is after its
start and its start is inside the day. -/
def validSlot (s : AvailabilitySlot) : Prop :=
  toMinutes s.startTime < toMinutes s.endTime ∧ toMinutes s.startTime < minutesInDay

instance (s : AvailabilitySlot) : Decidable (validSlot s) := by
  unfold validSlot; infer_instance

/-- The start minute of a slot's generated start event. -/
def startM (s : AvailabilitySlot) : Nat := max 0 (toMinutes s.startTime)

/-- The (clamped) end minute of a slot's generated end event. -/
def endM (s : AvailabilitySlot) : Nat := min (toMinutes s.endTime) minutesInDay

/-- The events a single slot contributes (none when invalid). -/
def slotEvents (rid : String) (s : AvailabilitySlot) : List Event :=
  if toMinutes s.endTime ≤ toMinutes s.startTime ∨ toMinutes s.startTime ≥ minutesInDay
  then []
  else [⟨startM s, EventType.start, rid⟩, ⟨endM s, EventType.stop, rid⟩]

/-- The flat list of events for one date, in generation order; proven
below to be the list `collectEvents` stores under that date. -/
def dateEvents (responses : List ParticipantAvailability) (d : String) : List Event :=
  responses.flatMap fun r =>
    (r.slots.filter (fun s => s.date = d)).flatMap (slotEvents r.id)

/-- Participant `p` is available at minute `m` on date `d`: some response
with id `p` holds a valid slot for `d` whose clamped range covers `m`. -/
def availableAt (responses : List ParticipantAvailability) (d : String)
    (m : Nat) (p : String) : Prop :=
  ∃ r ∈ responses, r.id = p ∧
    ∃ s ∈ r.slots, s.date = d ∧ validSlot s ∧ startM s ≤ m ∧ m < endM s

instance (responses : List ParticipantAvailability) (d : String) (m : Nat)
    (p : String) : Decidable (availableAt responses d m p) := by
  unfold availableAt; infer_instance

/-- Minute `m` on date `d` is covered by some valid slot of some
response. -/
def slotCovered (responses : List ParticipantAvailability) (d : String)
    (m : Nat) : Prop :=
  ∃ r ∈ responses, ∃ s ∈ r.slots,
    s.date = d ∧ validSlot s ∧ startM s ≤ m ∧ m < endM s

instance (responses : List ParticipantAvailability) (d : String) (m : Nat) :
    Decidable (slotCovered responses d m) := by
  unfold slotCovered; infer_instance

/-- Minute `m` lies inside some segment of `segs`. -/
def segCovered (segs : List TimelineSegment) (m : Nat) : Prop :=
  ∃ seg ∈ segs, seg.startMinutes ≤ m ∧ m < seg.endMinutes

instance (segs : List TimelineSegment) (m : Nat) :
    Decidable (segCovered segs m) := by
  unfold segCovered; infer_instance

/-- No participant has a slot whose (clamped) end minute falls strictly
inside another of their own valid slots on the same date.  Because the
sweep's active set is a `Set` keyed by participant id, such an interior
end deactivates the participant while their other slot is still open;
this hypothesis rules that out. -/
def noInteriorEnd (responses : List ParticipantAvailability) : Prop :=
  ∀ r₁ ∈ responses, ∀ r₂ ∈ responses, r₁.id = r₂.id →
    ∀ a ∈ r₁.slots, ∀ b ∈ r₂.slots, a.date = b.date →
      validSlot a → validSlot b →
        ¬ (startM a < endM b ∧ endM b < endM a)

instance (responses : List ParticipantAvailability) :
    Decidable (noInteriorEnd responses) := by
  unfold noInteriorEnd; infer_instance

/-- Remove every zero-length slot (`startTime == endTime`) from every
response. -/
def dropZeroLength (responses : List ParticipantAvailability) :
    List ParticipantAvailability :=
  responses.map fun r =>
    { r with slots := r.slots.filter (fun s => ¬ (s.startTime = s.endTime)) }

/-- `rs` and `rs'` differ by a permutation of the participants and a
permutation of the slots within each participant. -/
def permutedInput (rs rs' : List ParticipantAvailability) : Prop :=
  ∃ mid, List.Forall₂
      (fun a b => a.id = b.id ∧ a.slots.Perm b.slots) rs mid ∧
    mid.Perm rs'

/-! ### Stable sort lemmas -/

theorem insertBy_perm {α : Type} (le : α → α → Bool) (x : α) (l : List α) :
    (insertBy le x l).Perm (x :: l) := by
  induction l with
  | nil => simp [insertBy]
  | cons y ys ih =>
      unfold insertBy
      split
      · exact ((ih.cons y).trans (List.Perm.swap x y ys))
      · exact List.Perm.refl _

theorem sortBy_perm {α : Type} (le : α → α → Bool) (l : List α) :
    (sortBy le l).Perm l := by
  induction l with
  | nil => simp [sortBy]
  | cons x xs ih => exact (insertBy_perm le x (sortBy le xs)).trans (ih.cons x)

theorem insertBy_pairwise {α : Type} {le : α → α → Bool}
    (htot : ∀ a b, le a b = true ∨ le b a = true)
    (htrans : ∀ a b c, le a b = true → le b c = true → le a c = true)
    (x : α) {l : List α} (hl : l.Pairwise (fun a b => le a b = true)) :
    (insertBy le x l).Pairwise (fun a b => le a b = true) := by
  induction l with
  | nil => simp [insertBy]
  | cons y ys ih =>
      rcases List.pairwise_cons.mp hl with ⟨hy, hys⟩
      unfold insertBy
      split
      · rename_i hcond
        rw [Bool.and_eq_true, Bool.not_eq_true'] at hcond
        refine List.pairwise_cons.mpr ⟨?_, ih hys⟩
        intro z hz
        rcases List.mem_cons.mp ((insertBy_perm le x ys).mem_iff.mp hz) with hz | hz
        · subst hz; exact hcond.1
        · exact hy z hz
      · rename_i hcond
        rw [Bool.and_eq_true, Bool.not_eq_true'] at hcond
        push_neg at hcond
        have hxy : le x y = true := by
          by_cases h : le y x = true
          · simpa using hcond h
          · rcases htot x y with h' | h'
            · exact h'
            · exact absurd h' h
        refine List.pairwise_cons.mpr ⟨?_, hl⟩
        intro z hz
        rcases hz with _ | hz
        · exact hxy
        · exact htrans x y z hxy (hy z (by assumption))

theorem sortBy_pairwise {α : Type} {le : α → α → Bool}
    (htot : ∀ a b, le a b = true ∨ le b a = true)
    (htrans : ∀ a b c, le a b = true → le b c = true → le a c = true)
    (l : List α) :
    (sortBy le l).Pairwise (fun a b => le a b = true) := by
  induction l with
  | nil => simp [sortBy]
  | cons x xs ih => exact insertBy_pairwise htot htrans x ih

/-! ### The event and aggregation comparators are total preorders -/

theorem eventLE_iff {a b : Event} : eventLE a b = true ↔
    a.minutes < b.minutes ∨
      (a.minutes = b.minutes ∧ (a.type = b.type ∨ a.type = EventType.stop)) := by
  unfold eventLE
  by_cases h : a.minutes = b.minutes
  · by_cases ht : a.type = b.type <;> simp [h, ht]
  · simp [h]

theorem eventLE_total (a b : Event) : eventLE a b = true ∨ eventLE b a = true := by
  rw [eventLE_iff, eventLE_iff]
  rcases Nat.lt_trichotomy a.minutes b.minutes with h | h | h
  · exact Or.inl (Or.inl h)
  · cases hta : a.type
    · cases htb : b.type
      · exact Or.inl (Or.inr ⟨h, Or.inl rfl⟩)
      · exact Or.inr (Or.inr ⟨h.symm, Or.inr rfl⟩)
    · exact Or.inl (Or.inr ⟨h, Or.inr rfl⟩)
  · exact Or.inr (Or.inl h)

theorem eventLE_trans (a b c : Event) (h₁ : eventLE a b = true)
    (h₂ : eventLE b c = true) : eventLE a c = true := by
  rw [eventLE_iff] at h₁ h₂ ⊢
  rcases h₁ with h₁ | ⟨h₁, h₁'⟩
  · rcases h₂ with h₂ | ⟨h₂, _⟩
    · exact Or.inl (h₁.trans h₂)
    · exact Or.inl (h₂ ▸ h₁)
  · rcases h₂ with h₂ | ⟨h₂, h₂'⟩
    · exact Or.inl (h₁ ▸ h₂)
    · refine Or.inr ⟨h₁.trans h₂, ?_⟩
      rcases h₁' with h | h
      · rcases h₂' with h' | h'
        · exact Or.inl (h.trans h')
        · exact Or.inr (h ▸ h')
      · exact Or.inr h

theorem aggLE_iff {a b : AggregatedSlot} : aggLE a b = true ↔
    (a.date = b.date ∧ a.startTime ≤ b.startTime) ∨ a.date < b.date := by
  unfold aggLE
  by_cases h : a.date = b.date <;> simp [h]

theorem aggLE_total (a b : AggregatedSlot) : aggLE a b = true ∨ aggLE b a = true := by
  rw [aggLE_iff, aggLE_iff]
  by_cases h : a.date = b.date
  · rcases le_total a.startTime b.startTime with h' | h'
    · exact Or.inl (Or.inl ⟨h, h'⟩)
    · exact Or.inr (Or.inl ⟨h.symm, h'⟩)
  · rcases lt_or_gt_of_ne h with h' | h'
    · exact Or.inl (Or.inr h')
    · exact Or.inr (Or.inr h')

theorem aggLE_trans (a b c : AggregatedSlot) (h₁ : aggLE a b = true)
    (h₂ : aggLE b c = true) : aggLE a c = true := by
  rw [aggLE_iff] at h₁ h₂ ⊢
  rcases h₁ with ⟨he, hs⟩ | hlt
  · rcases h₂ with ⟨he', hs'⟩ | hlt'
    · exact Or.inl ⟨he.trans he', hs.trans hs'⟩
    · exact Or.inr (he ▸ hlt')
  · rcases h₂ with ⟨he', _⟩ | hlt'
    · exact Or.inr (he' ▸ hlt)
    · exact Or.inr (hlt.trans hlt')

/-! ### Sweep invariants: emitted segments are chained, positive-width,
and carry a non-empty participant list -/

theorem eventLE_minutes {a b : Event} (h : eventLE a b = true) :
    a.minutes ≤ b.minutes := by
  rcases eventLE_iff.mp h with h | ⟨h, _⟩
  · exact Nat.le_of_lt h
  · exact Nat.le_of_eq h

theorem applyEvent_prevMinute (st : SweepState) (e : Event) :
    (applyEvent st e).prevMinute = e.minutes := by
  unfold applyEvent
  split <;> rfl

theorem applyEvent_segments (st : SweepState) (e : Event) :
    (applyEvent st e).segments =
      if st.active.length > 0 ∧ e.minutes > st.prevMinute then
        st.segments ++ [⟨st.prevMinute, e.minutes, st.active⟩]
      else st.segments := by
  unfold applyEvent
  split <;> rfl

theorem sweep_inv (evs : List Event) (st : SweepState)
    (hsorted : evs.Pairwise (fun a b => eventLE a b = true))
    (hbound : ∀ e ∈ evs, st.prevMinute ≤ e.minutes)
    (hseg : ∀ s ∈ st.segments, s.endMinutes ≤ st.prevMinute)
    (hgood : ∀ s ∈ st.segments,
        s.startMinutes < s.endMinutes ∧ s.participantIds ≠ [])
    (hchain : st.segments.Pairwise (fun a b => a.endMinutes ≤ b.startMinutes)) :
    (∀ s ∈ (evs.foldl applyEvent st).segments,
        s.endMinutes ≤ (evs.foldl applyEvent st).prevMinute) ∧
    (∀ s ∈ (evs.foldl applyEvent st).segments,
        s.startMinutes < s.endMinutes ∧ s.participantIds ≠ []) ∧
    (evs.foldl applyEvent st).segments.Pairwise
      (fun a b => a.endMinutes ≤ b.startMinutes) := by
  induction evs generalizing st with
  | nil => exact ⟨hseg, hgood, hchain⟩
  | cons e rest ih =>
      rcases List.pairwise_cons.mp hsorted with ⟨hle, hrest⟩
      have hpm : st.prevMinute ≤ e.minutes := hbound e (List.mem_cons_self e rest)
      simp only [List.foldl_cons]
      apply ih (applyEvent st e) hrest
      · intro e' he'
        rw [applyEvent_prevMinute]
        exact eventLE_minutes (hle e' he')
      · intro s hs
        rw [applyEvent_prevMinute]
        rw [applyEvent_segments] at hs
        split at hs
        · rcases List.mem_append.mp hs with hs | hs
          · exact (hseg s hs).trans hpm
          · rcases List.mem_singleton.mp hs with rfl
            exact Nat.le_refl _
        · exact (hseg s hs).trans hpm
      · intro s hs
        rw [applyEvent_segments] at hs
        split at hs
        · rename_i hc
          rcases List.mem_append.mp hs with hs | hs
          · exact hgood s hs
          · rcases List.mem_singleton.mp hs with rfl
            constructor
            · exact hc.2
            · exact List.ne_nil_of_length_pos hc.1
        · exact hgood s hs
      · rw [applyEvent_segments]
        split
        · refine List.pairwise_append.mpr ⟨hchain, List.pairwise_singleton _ _, ?_⟩
          intro a ha b hb
          rcases List.mem_singleton.mp hb with rfl
          exact hseg a ha
        · exact hchain

theorem sweepDate_inv (l : List Event) :
    (∀ s ∈ sweepDate l, s.startMinutes < s.endMinutes ∧ s.participantIds ≠ []) ∧
    (sweepDate l).Pairwise (fun a b => a.endMinutes ≤ b.startMinutes) := by
  unfold sweepDate
  have hsort : (sortBy eventLE l).Pairwise (fun a b => eventLE a b = true) :=
    sortBy_pairwise eventLE_total eventLE_trans l
  cases hsorted : sortBy eventLE l with
  | nil => simp
  | cons e0 tail =>
      rw [hsorted] at hsort
      rcases List.pairwise_cons.mp hsort with ⟨hle, _⟩
      have h := sweep_inv (e0 :: tail)
        ⟨[], (((e0 :: tail).head?).map Event.minutes).getD 0, []⟩ hsort
        ?_ ?_ ?_ ?_
      · exact ⟨h.2.1, h.2.2⟩
      · intro e he
        simp only [List.head?_cons, Option.map_some, Option.getD_some]
        rcases List.mem_cons.mp he with rfl | he
        · exact Nat.le_refl _
        · exact eventLE_minutes (hle e he)
      · intro s hs; cases hs
      · intro s hs; cases hs
      · exact List.Pairwise.nil

/-! ### Bridging the association-list record to per-date lookups -/

theorem getEntry_map {α β : Type} (f : α → β) (l : List (String × α)) (k : String) :
    getEntry (l.map (fun e => (e.fst, f e.snd))) k = (getEntry l k).map f := by
  induction l with
  | nil => rfl
  | cons e rest ih =>
      cases e with
      | mk k' v => by_cases h : k' = k <;> simp [getEntry, h, ih]

theorem timelineSegments_eq_map (rs : List ParticipantAvailability) (d : String) :
    timelineSegments rs d = ((getEntry (collectEvents rs) d).map sweepDate).getD [] := by
  unfold timelineSegments buildTimeline
  rw [getEntry_map]

theorem timelineSegments_inv (rs : List ParticipantAvailability) (d : String) :
    (∀ s ∈ timelineSegments rs d,
        s.startMinutes < s.endMinutes ∧ s.participantIds ≠ []) ∧
    (timelineSegments rs d).Pairwise (fun a b => a.endMinutes ≤ b.startMinutes) := by
  rw [timelineSegments_eq_map]
  cases getEntry (collectEvents rs) d with
  | none => simp
  | some evs => exact sweepDate_inv evs

theorem getEntry_setEntry_self {α : Type} (m : List (String × α)) (k : String)
    (v : α) : getEntry (setEntry m k v) k = some v := by
  induction m with
  | nil => simp [setEntry, getEntry]
  | cons e rest ih =>
      cases e with
      | mk k' w => by_cases h : k' = k <;> simp [setEntry, getEntry, h, ih]

theorem getEntry_setEntry_ne {α : Type} (m : List (String × α)) {k k' : String}
    (v : α) (h : k ≠ k') : getEntry (setEntry m k v) k' = getEntry m k' := by
  induction m with
  | nil => simp [setEntry, getEntry, h]
  | cons e rest ih =>
      cases e with
      | mk k'' w =>
          by_cases h' : k'' = k <;> simp [setEntry, getEntry, h', h, ih]

/-- Append a date's new events to an optional stored event list: the
absent entry stays absent exactly when nothing is appended. -/
def appendOpt (o : Option (List Event)) (es : List Event) : Option (List Event) :=
  if es = [] then o else some (o.getD [] ++ es)

theorem appendOpt_assoc (o : Option (List Event)) (es fs : List Event) :
    appendOpt (appendOpt o es) fs = appendOpt o (es ++ fs) := by
  by_cases he : es = [] <;> by_cases hf : fs = [] <;>
    simp [appendOpt, he, hf]

theorem getEntry_pushSlotEvents (m : List (String × List Event)) (rid : String)
    (s : AvailabilitySlot) (d : String) :
    getEntry (pushSlotEvents m rid s) d =
      appendOpt (getEntry m d) (if s.date = d then slotEvents rid s else []) := by
  unfold pushSlotEvents slotEvents
  by_cases hv : toMinutes s.endTime ≤ toMinutes s.startTime ∨
      toMinutes s.startTime ≥ minutesInDay
  · rw [if_pos hv]
    by_cases hd : s.date = d <;> simp [hv, hd, appendOpt]
  · rw [if_neg hv]
    by_cases hd : s.date = d
    · subst hd
      rw [getEntry_setEntry_self]
      simp [hv, appendOpt, startM, endM]
    · rw [getEntry_setEntry_ne _ _ hd]
      simp [hv, hd, appendOpt]

theorem getEntry_foldSlots (slots : List AvailabilitySlot)
    (m : List (String × List Event)) (rid : String) (d : String) :
    getEntry (slots.foldl (fun m s => pushSlotEvents m rid s) m) d =
      appendOpt (getEntry m d)
        ((slots.filter (fun s => s.date = d)).flatMap (slotEvents rid)) := by
  induction slots generalizing m with
  | nil => simp [appendOpt]
  | cons s rest ih =>
      simp only [List.foldl_cons]
      rw [ih, getEntry_pushSlotEvents]
      by_cases hd : s.date = d
      · rw [appendOpt_assoc]
        simp [List.filter_cons, hd]
      · simp [List.filter_cons, hd, appendOpt]

theorem getEntry_collectFold (rs : List ParticipantAvailability)
    (m : List (String × List Event)) (d : String) :
    getEntry (rs.foldl
        (fun m r => r.slots.foldl (fun m s => pushSlotEvents m r.id s) m) m) d =
      appendOpt (getEntry m d) (dateEvents rs d) := by
  induction rs generalizing m with
  | nil => simp [dateEvents, appendOpt]
  | cons r rest ih =>
      simp only [List.foldl_cons]
      rw [ih, getEntry_foldSlots, appendOpt_assoc]
      simp [dateEvents]

theorem getEntry_collectEvents (rs : List ParticipantAvailability) (d : String) :
    getEntry (collectEvents rs) d =
      if dateEvents rs d = [] then none else some (dateEvents rs d) := by
  unfold collectEvents
  rw [getEntry_collectFold]
  by_cases h : dateEvents rs d = [] <;> simp [appendOpt, getEntry, h]

theorem timelineSegments_eq_sweep (rs : List ParticipantAvailability) (d : String) :
    timelineSegments rs d = sweepDate (dateEvents rs d) := by
  rw [timelineSegments_eq_map, getEntry_collectEvents]
  split
  · rename_i h; rw [h]; rfl
  · rfl

/-! ### Zero-length slots never reach the event phase -/

theorem pushSlotEvents_zero (m : List (String × List Event)) (rid : String)
    (s : AvailabilitySlot) (h : s.startTime = s.endTime) :
    pushSlotEvents m rid s = m := by
  unfold pushSlotEvents
  rw [if_pos (Or.inl (le_of_eq (by rw [h])))]

theorem foldSlots_filter_zero (slots : List AvailabilitySlot)
    (m : List (String × List Event)) (rid : String) :
    (slots.filter (fun s => ¬ (s.startTime = s.endTime))).foldl
        (fun m s => pushSlotEvents m rid s) m =
      slots.foldl (fun m s => pushSlotEvents m rid s) m := by
  induction slots generalizing m with
  | nil => rfl
  | cons s rest ih =>
      by_cases h : s.startTime = s.endTime
      · rw [List.filter_cons, if_neg (by simp [h]), List.foldl_cons,
          pushSlotEvents_zero m rid s h]
        exact ih m
      · rw [List.filter_cons, if_pos (by simp [h]), List.foldl_cons,
          List.foldl_cons]
        exact ih _

theorem collectFold_dropZeroLength (rs : List ParticipantAvailability)
    (m : List (String × List Event)) :
    (dropZeroLength rs).foldl
        (fun m r => r.slots.foldl (fun m s => pushSlotEvents m r.id s) m) m =
      rs.foldl (fun m r => r.slots.foldl (fun m s => pushSlotEvents m r.id s) m) m := by
  induction rs generalizing m with
  | nil => rfl
  | cons r rest ih =>
      simp only [dropZeroLength, List.map_cons, List.foldl_cons] at ih ⊢
      rw [foldSlots_filter_zero]
      exact ih _

theorem collectEvents_dropZeroLength (rs : List ParticipantAvailability) :
    collectEvents (dropZeroLength rs) = collectEvents rs := by
  unfold collectEvents
  exact collectFold_dropZeroLength rs []

/-! ### Pointwise characterization of the sweep -/

/-- The active-set update of a single event, without segment emission. -/
def stepActive (active : List String) (e : Event) : List String :=
  match e.type with
  | EventType.start =>
      if e.participantId ∈ active then active else active ++ [e.participantId]
  | EventType.stop => active.erase e.participantId

/-- The active set an event list leaves behind. -/
def runActive (active : List String) (evs : List Event) : List String :=
  evs.foldl stepActive active

/-- Boolean tracking of one participant through an event list: a start
event of `p` activates, an end event of `p` deactivates, anything else
leaves the flag alone. -/
def pActive (p : String) (b : Bool) (evs : List Event) : Bool :=
  evs.foldl
    (fun b e =>
      if e.participantId = p then decide (e.type = EventType.start) else b) b

theorem applyEvent_active (st : SweepState) (e : Event) :
    (applyEvent st e).active = stepActive st.active e := rfl

theorem stepActive_start {active : List String} {e : Event}
    (h : e.type = EventType.start) :
    stepActive active e =
      if e.participantId ∈ active then active
      else active ++ [e.participantId] := by
  unfold stepActive
  rw [h]

theorem stepActive_stop {active : List String} {e : Event}
    (h : e.type = EventType.stop) :
    stepActive active e = active.erase e.participantId := by
  unfold stepActive
  rw [h]

theorem stepActive_nodup {active : List String} (h : active.Nodup) (e : Event) :
    (stepActive active e).Nodup := by
  cases ht : e.type with
  | start =>
      rw [stepActive_start ht]
      by_cases hmem : e.participantId ∈ active
      · simpa [hmem] using h
      · simp [hmem, List.nodup_append, h]
  | stop =>
      rw [stepActive_stop ht]
      exact h.erase _

theorem runActive_nodup {active : List String} (h : active.Nodup)
    (evs : List Event) : (runActive active evs).Nodup := by
  induction evs generalizing active with
  | nil => exact h
  | cons e rest ih => exact ih (stepActive_nodup h e)

theorem mem_stepActive {active : List String} (hnd : active.Nodup) (e : Event)
    (p : String) :
    decide (p ∈ stepActive active e) =
      if e.participantId = p then decide (e.type = EventType.start)
      else decide (p ∈ active) := by
  cases ht : e.type with
  | start =>
      rw [stepActive_start ht]
      by_cases hp : e.participantId = p
      · subst hp
        by_cases hmem : e.participantId ∈ active
        · simp [hmem, ht]
        · simp [hmem, ht]
      · by_cases hmem : e.participantId ∈ active
        · simp [hmem, hp]
        · simp [hmem, List.mem_append, hp, Ne.symm hp]
  | stop =>
      rw [stepActive_stop ht]
      by_cases hp : e.participantId = p
      · subst hp
        simp [hnd.mem_erase_iff, ht]
      · simp [hnd.mem_erase_iff, hp, Ne.symm hp]

theorem mem_runActive {active : List String} (hnd : active.Nodup)
    (evs : List Event) (p : String) :
    (p ∈ runActive active evs) ↔ pActive p (decide (p ∈ active)) evs = true := by
  induction evs generalizing active with
  | nil => simp [runActive, pActive]
  | cons e rest ih =>
      show (p ∈ runActive (stepActive active e) rest) ↔ _
      rw [ih (stepActive_nodup hnd e)]
      unfold pActive
      rw [List.foldl_cons, mem_stepActive hnd e p]

/-- Minute `m` lies in a segment of `segs` attributed to `p`. -/
def covSeg (segs : List TimelineSegment) (m : Nat) (p : String) : Prop :=
  ∃ seg ∈ segs, seg.startMinutes ≤ m ∧ m < seg.endMinutes ∧ p ∈ seg.participantIds

theorem covSeg_append (segs₁ segs₂ : List TimelineSegment) (m : Nat) (p : String) :
    covSeg (segs₁ ++ segs₂) m p ↔ covSeg segs₁ m p ∨ covSeg segs₂ m p := by
  constructor
  · rintro ⟨seg, hmem, h⟩
    rcases List.mem_append.mp hmem with h' | h'
    · exact Or.inl ⟨seg, h', h⟩
    · exact Or.inr ⟨seg, h', h⟩
  · rintro (⟨seg, h', h⟩ | ⟨seg, h', h⟩)
    · exact ⟨seg, List.mem_append.mpr (Or.inl h'), h⟩
    · exact ⟨seg, List.mem_append.mpr (Or.inr h'), h⟩

theorem sweep_cov (evs : List Event) (st : SweepState) (m : Nat) (p : String)
    (hbound : ∀ e ∈ evs, st.prevMinute ≤ e.minutes)
    (hmono : evs.Pairwise (fun a b => a.minutes ≤ b.minutes)) :
    covSeg (evs.foldl applyEvent st).segments m p ↔
      (covSeg st.segments m p ∨
        (st.prevMinute ≤ m ∧
          p ∈ runActive st.active
            (evs.takeWhile (fun e => decide (e.minutes ≤ m))) ∧
          ∃ e ∈ evs, m < e.minutes)) := by
  induction evs generalizing st with
  | nil => simp [runActive]
  | cons e rest ih =>
      rcases List.pairwise_cons.mp hmono with ⟨hle, hrest⟩
      have hpm : st.prevMinute ≤ e.minutes := hbound e (List.mem_cons_self e rest)
      have hbound' : ∀ e' ∈ rest, (applyEvent st e).prevMinute ≤ e'.minutes := by
        intro e' he'
        rw [applyEvent_prevMinute]
        exact hle e' he'
      rw [List.foldl_cons, ih (applyEvent st e) hbound' hrest,
        applyEvent_prevMinute, applyEvent_active, applyEvent_segments]
      by_cases hm : e.minutes ≤ m
      · have htw : (e :: rest).takeWhile (fun e => decide (e.minutes ≤ m)) =
            e :: rest.takeWhile (fun e => decide (e.minutes ≤ m)) := by
          rw [List.takeWhile_cons]
          simp [hm]
        have hrun : runActive st.active
            (e :: rest.takeWhile (fun e => decide (e.minutes ≤ m))) =
            runActive (stepActive st.active e)
              (rest.takeWhile (fun e => decide (e.minutes ≤ m))) := rfl
        rw [htw, hrun]
        have hnc : ¬ (m < e.minutes) := not_lt_of_ge hm
        have hexists : (∃ e' ∈ e :: rest, m < e'.minutes) ↔
            (∃ e' ∈ rest, m < e'.minutes) := by
          constructor
          · rintro ⟨e', he', hlt⟩
            rcases List.mem_cons.mp he' with rfl | he'
            · exact absurd hlt hnc
            · exact ⟨e', he', hlt⟩
          · rintro ⟨e', he', hlt⟩
            exact ⟨e', List.mem_cons_of_mem e he', hlt⟩
        split
        · rw [covSeg_append]
          have hseg : ¬ covSeg [⟨st.prevMinute, e.minutes, st.active⟩] m p := by
            rintro ⟨seg, hmem, _, hlt, _⟩
            rcases List.mem_singleton.mp hmem with rfl
            exact hnc hlt
          constructor
          · rintro ((h | h) | h)
            · exact Or.inl h
            · exact absurd h hseg
            · exact Or.inr ⟨hpm.trans hm, h.2.1, hexists.mpr h.2.2⟩
          · rintro (h | h)
            · exact Or.inl (Or.inl h)
            · exact Or.inr ⟨hm, h.2.1, hexists.mp h.2.2⟩
        · constructor
          · rintro (h | h)
            · exact Or.inl h
            · exact Or.inr ⟨hpm.trans hm, h.2.1, hexists.mpr h.2.2⟩
          · rintro (h | h)
            · exact Or.inl h
            · exact Or.inr ⟨hm, h.2.1, hexists.mp h.2.2⟩
      · have hlt : m < e.minutes := lt_of_not_ge hm
        have htw : (e :: rest).takeWhile (fun e => decide (e.minutes ≤ m)) =
            [] := by
          rw [List.takeWhile_cons]
          simp [hm]
        rw [htw]
        have hrest_none : ¬ (e.minutes ≤ m ∧
            p ∈ runActive (stepActive st.active e)
              (rest.takeWhile (fun e => decide (e.minutes ≤ m))) ∧
            ∃ e' ∈ rest, m < e'.minutes) := by
          rintro ⟨h, _, _⟩
          exact hm h
        split
        · rename_i hc
          rw [covSeg_append]
          constructor
          · rintro ((h | h) | h)
            · exact Or.inl h
            · rcases h with ⟨seg, hmem, h1, h2, h3⟩
              rcases List.mem_singleton.mp hmem with rfl
              exact Or.inr ⟨h1, by simpa [runActive] using h3,
                ⟨e, List.mem_cons_self e rest, hlt⟩⟩
            · exact absurd h hrest_none
          · rintro (h | h)
            · exact Or.inl (Or.inl h)
            · refine Or.inl (Or.inr ?_)
              refine ⟨⟨st.prevMinute, e.minutes, st.active⟩,
                List.mem_singleton_self _, h.1, hlt, ?_⟩
              simpa [runActive] using h.2.1
        · rename_i hc
          constructor
          · rintro (h | h)
            · exact Or.inl h
            · exact absurd h hrest_none
          · rintro (h | h)
            · exact Or.inl h
            · exfalso
              rcases h with ⟨h1, h2, _⟩
              have hpmem : p ∈ st.active := by simpa [runActive] using h2
              have hlen : st.active.length > 0 :=
                List.length_pos.mpr (List.ne_nil_of_mem hpmem)
              have : e.minutes ≤ st.prevMinute := by
                by_contra hgt
                exact hc ⟨hlen, lt_of_not_ge hgt⟩
              exact hm (this.trans h1)

theorem sweepDate_cov (l : List Event) (m : Nat) (p : String) :
    covSeg (sweepDate l) m p ↔
      (p ∈ runActive []
          ((sortBy eventLE l).takeWhile (fun e => decide (e.minutes ≤ m))) ∧
        ∃ e ∈ l, m < e.minutes) := by
  have hperm := sortBy_perm eventLE l
  have hpair := sortBy_pairwise eventLE_total eventLE_trans l
  have hmono : (sortBy eventLE l).Pairwise (fun a b => a.minutes ≤ b.minutes) :=
    hpair.imp (fun h => eventLE_minutes h)
  have hbound : ∀ e ∈ sortBy eventLE l,
      (((((sortBy eventLE l).head?).map Event.minutes).getD 0 : Nat)) ≤ e.minutes := by
    cases hsl : sortBy eventLE l with
    | nil => intro e he; cases he
    | cons e0 tail =>
        rw [hsl] at hpair
        rcases List.pairwise_cons.mp hpair with ⟨hle, _⟩
        intro e he
        simp only [List.head?_cons, Option.map_some, Option.getD_some]
        rcases List.mem_cons.mp he with rfl | he
        · exact Nat.le_refl _
        · exact eventLE_minutes (hle e he)
  unfold sweepDate
  rw [sweep_cov (sortBy eventLE l)
    ⟨[], ((((sortBy eventLE l).head?).map Event.minutes).getD 0 : Nat), []⟩
    m p hbound hmono]
  constructor
  · rintro (h | ⟨_, hx, e, he, hlt⟩)
    · rcases h with ⟨seg, hmem, _⟩
      cases hmem
    · exact ⟨hx, e, hperm.mem_iff.mp he, hlt⟩
  · rintro ⟨hx, e, he, hlt⟩
    refine Or.inr ⟨?_, hx, e, hperm.mem_iff.mpr he, hlt⟩
    cases hsl : sortBy eventLE l with
    | nil => simp
    | cons e0 tail =>
        show (((Option.map Event.minutes (e0 :: tail).head?).getD 0 : Nat)) ≤ m
        simp only [List.head?_cons, Option.map_some, Option.getD_some]
        by_cases h0 : e0.minutes ≤ m
        · exact h0
        · exfalso
          rw [hsl] at hx
          rw [List.takeWhile_cons, if_neg (by simpa using h0)] at hx
          cases hx

/-- There is a start event of `p` at or before minute `m` that no end
event of `p` cancels within `(its minute, m]`. -/
def startNoStop (E : List Event) (m : Nat) (p : String) : Prop :=
  ∃ e ∈ E, e.participantId = p ∧ e.type = EventType.start ∧ e.minutes ≤ m ∧
    ∀ e' ∈ E, e'.participantId = p → e'.type = EventType.stop →
      ¬ (e.minutes < e'.minutes ∧ e'.minutes ≤ m)

/-- No end event of `p` occurs at or before minute `m`. -/
def noStopUpTo (E : List Event) (m : Nat) (p : String) : Prop :=
  ∀ e' ∈ E, e'.participantId = p → e'.type = EventType.stop →
    ¬ (e'.minutes ≤ m)

theorem startNoStop_cons_not_p {e : Event} {E : List Event} {m : Nat}
    {p : String} (hp : e.participantId ≠ p) :
    startNoStop (e :: E) m p ↔ startNoStop E m p := by
  unfold startNoStop
  constructor
  · rintro ⟨c, hc, hcp, hct, hcm, hall⟩
    rcases List.mem_cons.mp hc with rfl | hc
    · exact absurd hcp hp
    · exact ⟨c, hc, hcp, hct, hcm,
        fun e' he' => hall e' (List.mem_cons_of_mem e he')⟩
  · rintro ⟨c, hc, hcp, hct, hcm, hall⟩
    refine ⟨c, List.mem_cons_of_mem e hc, hcp, hct, hcm, ?_⟩
    intro e' he' hep het
    rcases List.mem_cons.mp he' with rfl | he'
    · exact absurd hep hp
    · exact hall e' he' hep het

theorem noStopUpTo_cons_not_p {e : Event} {E : List Event} {m : Nat}
    {p : String} (hp : e.participantId ≠ p) :
    noStopUpTo (e :: E) m p ↔ noStopUpTo E m p := by
  unfold noStopUpTo
  constructor
  · intro h e' he'
    exact h e' (List.mem_cons_of_mem e he')
  · intro h e' he' hep het
    rcases List.mem_cons.mp he' with rfl | he'
    · exact absurd hep hp
    · exact h e' he' hep het

theorem eventLE_start_stop {e e' : Event} (h : eventLE e e' = true)
    (ht : e.type = EventType.start) (ht' : e'.type = EventType.stop) :
    e.minutes < e'.minutes := by
  rcases eventLE_iff.mp h with h | ⟨_, h2⟩
  · exact h
  · rcases h2 with h2 | h2
    · rw [ht, ht'] at h2; cases h2
    · rw [ht] at h2; cases h2

theorem noStopUpTo_cons_start {e : Event} {E : List Event} {m : Nat}
    {p : String} (ht : e.type = EventType.start) :
    noStopUpTo (e :: E) m p ↔ noStopUpTo E m p := by
  unfold noStopUpTo
  constructor
  · intro h e' he'
    exact h e' (List.mem_cons_of_mem e he')
  · intro h e' he' hep het
    rcases List.mem_cons.mp he' with rfl | he'
    · rw [ht] at het; cases het
    · exact h e' he' hep het

theorem noStopUpTo_cons_stop {e : Event} {E : List Event} {m : Nat}
    {p : String} (hp : e.participantId = p) (ht : e.type = EventType.stop)
    (hm : e.minutes ≤ m) : ¬ noStopUpTo (e :: E) m p :=
  fun h => h e (List.mem_cons_self e E) hp ht hm

theorem startNoStop_cons_start {e : Event} {E : List Event} {m : Nat}
    {p : String} (hp : e.participantId = p) (ht : e.type = EventType.start)
    (hm : e.minutes ≤ m) (hle : ∀ e' ∈ E, eventLE e e' = true) :
    startNoStop (e :: E) m p ↔ (startNoStop E m p ∨ noStopUpTo E m p) := by
  constructor
  · rintro ⟨c, hc, hcp, hct, hcm, hall⟩
    rcases List.mem_cons.mp hc with rfl | hc
    · refine Or.inr ?_
      intro e' he' hep het hem
      exact hall e' (List.mem_cons_of_mem c he') hep het
        ⟨eventLE_start_stop (hle e' he') hct het, hem⟩
    · exact Or.inl ⟨c, hc, hcp, hct, hcm,
        fun e' he' => hall e' (List.mem_cons_of_mem e he')⟩
  · rintro (⟨c, hc, hcp, hct, hcm, hall⟩ | hns)
    · refine ⟨c, List.mem_cons_of_mem e hc, hcp, hct, hcm, ?_⟩
      intro e' he' hep het
      rcases List.mem_cons.mp he' with rfl | he'
      · rw [ht] at het; cases het
      · exact hall e' he' hep het
    · refine ⟨e, List.mem_cons_self e E, hp, ht, hm, ?_⟩
      intro e' he' hep het
      rcases List.mem_cons.mp he' with rfl | he'
      · rw [ht] at het; cases het
      · rintro ⟨_, hem⟩
        exact hns e' he' hep het hem

theorem startNoStop_cons_stop {e : Event} {E : List Event} {m : Nat}
    {p : String} (ht : e.type = EventType.stop)
    (hle : ∀ e' ∈ E, eventLE e e' = true) :
    startNoStop (e :: E) m p ↔ startNoStop E m p := by
  constructor
  · rintro ⟨c, hc, hcp, hct, hcm, hall⟩
    rcases List.mem_cons.mp hc with rfl | hc
    · rw [ht] at hct; cases hct
    · exact ⟨c, hc, hcp, hct, hcm,
        fun e' he' => hall e' (List.mem_cons_of_mem e he')⟩
  · rintro ⟨c, hc, hcp, hct, hcm, hall⟩
    refine ⟨c, List.mem_cons_of_mem e hc, hcp, hct, hcm, ?_⟩
    intro e' he' hep het
    rcases List.mem_cons.mp he' with rfl | he'
    · rintro ⟨hlt, _⟩
      exact absurd hlt (not_lt_of_ge (eventLE_minutes (hle c hc)))
    · exact hall e' he' hep het

theorem startNoStop_none_of_big {e : Event} {E : List Event} {m : Nat}
    {p : String} (hm : ¬ e.minutes ≤ m)
    (hle : ∀ e' ∈ E, eventLE e e' = true) : ¬ startNoStop (e :: E) m p := by
  rintro ⟨c, hc, _, _, hcm, _⟩
  rcases List.mem_cons.mp hc with rfl | hc
  · exact hm hcm
  · exact hm ((eventLE_minutes (hle c hc)).trans hcm)

theorem noStopUpTo_of_big {e : Event} {E : List Event} {m : Nat}
    {p : String} (hm : ¬ e.minutes ≤ m)
    (hle : ∀ e' ∈ E, eventLE e e' = true) : noStopUpTo (e :: E) m p := by
  intro e' he' _ _ hem
  rcases List.mem_cons.mp he' with rfl | he'
  · exact hm hem
  · exact hm ((eventLE_minutes (hle e' he')).trans hem)

theorem pActive_char (S : List Event) (m : Nat) (p : String) (b : Bool)
    (hpair : S.Pairwise (fun a b => eventLE a b = true)) :
    (pActive p b (S.takeWhile (fun e => decide (e.minutes ≤ m))) = true) ↔
      (startNoStop S m p ∨ (b = true ∧ noStopUpTo S m p)) := by
  induction S generalizing b with
  | nil => simp [pActive, startNoStop, noStopUpTo]
  | cons e E ih =>
      rcases List.pairwise_cons.mp hpair with ⟨hle, hE⟩
      by_cases hm : e.minutes ≤ m
      · have htw : (e :: E).takeWhile (fun e => decide (e.minutes ≤ m)) =
            e :: E.takeWhile (fun e => decide (e.minutes ≤ m)) := by
          rw [List.takeWhile_cons]
          simp [hm]
        rw [htw]
        have hfold : pActive p b
            (e :: E.takeWhile (fun e => decide (e.minutes ≤ m))) =
            pActive p
              (if e.participantId = p then decide (e.type = EventType.start)
               else b)
              (E.takeWhile (fun e => decide (e.minutes ≤ m))) := rfl
        rw [hfold, ih _ hE]
        by_cases hp : e.participantId = p
        · cases hety : e.type with
          | start =>
              rw [if_pos hp, startNoStop_cons_start hp hety hm hle,
                noStopUpTo_cons_start hety]
              simp only [decide_eq_true_eq]
              constructor
              · rintro (h | ⟨_, h⟩)
                · exact Or.inl (Or.inl h)
                · exact Or.inl (Or.inr h)
              · rintro ((h | h) | ⟨_, h⟩)
                · exact Or.inl h
                · exact Or.inr ⟨trivial, h⟩
                · exact Or.inr ⟨trivial, h⟩
          | stop =>
              rw [if_pos hp, startNoStop_cons_stop hety hle]
              have hns := noStopUpTo_cons_stop hp hety hm (E := E)
              simp [hns]
        · rw [if_neg hp, startNoStop_cons_not_p hp, noStopUpTo_cons_not_p hp]
      · have htw : (e :: E).takeWhile (fun e => decide (e.minutes ≤ m)) =
            [] := by
          rw [List.takeWhile_cons]
          simp [hm]
        rw [htw]
        have h1 := startNoStop_none_of_big (p := p) hm hle
        have h2 := noStopUpTo_of_big (p := p) hm hle
        simp [pActive, h1, h2]

theorem startNoStop_perm {S E : List Event} (h : S.Perm E) (m : Nat)
    (p : String) : startNoStop S m p ↔ startNoStop E m p := by
  unfold startNoStop
  constructor
  · rintro ⟨c, hc, hcp, hct, hcm, hall⟩
    exact ⟨c, h.mem_iff.mp hc, hcp, hct, hcm,
      fun e' he' => hall e' (h.mem_iff.mpr he')⟩
  · rintro ⟨c, hc, hcp, hct, hcm, hall⟩
    exact ⟨c, h.mem_iff.mpr hc, hcp, hct, hcm,
      fun e' he' => hall e' (h.mem_iff.mp he')⟩

theorem cov_iff_startNoStop (l : List Event) (m : Nat) (p : String) :
    covSeg (sweepDate l) m p ↔
      (startNoStop l m p ∧ ∃ e ∈ l, m < e.minutes) := by
  rw [sweepDate_cov]
  have hpair := sortBy_pairwise eventLE_total eventLE_trans l
  have hperm := sortBy_perm eventLE l
  have hdec : (decide (p ∈ ([] : List String))) = false := by simp
  constructor
  · rintro ⟨hx, he⟩
    refine ⟨?_, he⟩
    have hb := (mem_runActive List.nodup_nil _ p).mp hx
    rw [hdec] at hb
    rcases (pActive_char (sortBy eventLE l) m p false hpair).mp hb with h | ⟨hb', _⟩
    · exact (startNoStop_perm hperm m p).mp h
    · cases hb'
  · rintro ⟨hs, he⟩
    refine ⟨?_, he⟩
    apply (mem_runActive List.nodup_nil _ p).mpr
    rw [hdec]
    exact (pActive_char _ m p false hpair).mpr
      (Or.inl ((startNoStop_perm hperm m p).mpr hs))

theorem validSlot_iff (s : AvailabilitySlot) : validSlot s ↔
    ¬ (toMinutes s.endTime ≤ toMinutes s.startTime ∨
        toMinutes s.startTime ≥ minutesInDay) := by
  unfold validSlot
  omega

theorem slotEvents_valid {rid : String} {s : AvailabilitySlot}
    (h : validSlot s) :
    slotEvents rid s =
      [⟨startM s, EventType.start, rid⟩, ⟨endM s, EventType.stop, rid⟩] := by
  unfold slotEvents
  rw [if_neg ((validSlot_iff s).mp h)]

theorem mem_slotEvents {rid : String} {s : AvailabilitySlot} {e : Event} :
    e ∈ slotEvents rid s ↔
      validSlot s ∧ (e = ⟨startM s, EventType.start, rid⟩ ∨
        e = ⟨endM s, EventType.stop, rid⟩) := by
  by_cases h : validSlot s
  · rw [slotEvents_valid h]
    simp [h]
  · have hc := of_not_not (mt (validSlot_iff s).mpr h)
    unfold slotEvents
    rw [if_pos hc]
    simp [h]

theorem startM_eq (s : AvailabilitySlot) : startM s = toMinutes s.startTime :=
  Nat.max_eq_right (Nat.zero_le _)

theorem startM_lt_endM {s : AvailabilitySlot} (h : validSlot s) :
    startM s < endM s := by
  rw [startM_eq]
  exact lt_min h.1 h.2

theorem mem_dateEvents {rs : List ParticipantAvailability} {d : String}
    {e : Event} :
    e ∈ dateEvents rs d ↔
      ∃ r ∈ rs, ∃ s ∈ r.slots, s.date = d ∧ e ∈ slotEvents r.id s := by
  unfold dateEvents
  constructor
  · intro h
    rcases List.mem_flatMap.mp h with ⟨r, hr, hmem⟩
    rcases List.mem_flatMap.mp hmem with ⟨s, hs, hse⟩
    rcases List.mem_filter.mp hs with ⟨hs', hd⟩
    exact ⟨r, hr, s, hs', by simpa using hd, hse⟩
  · rintro ⟨r, hr, s, hs, hd, hse⟩
    exact List.mem_flatMap.mpr ⟨r, hr, List.mem_flatMap.mpr
      ⟨s, List.mem_filter.mpr ⟨hs, by simpa using hd⟩, hse⟩⟩

theorem startNoStop_available {rs : List ParticipantAvailability} {d : String}
    {m : Nat} {p : String} (h : startNoStop (dateEvents rs d) m p) :
    availableAt rs d m p := by
  rcases h with ⟨e, he, hep, het, hem, hall⟩
  rcases mem_dateEvents.mp he with ⟨r, hr, s, hs, hsd, hse⟩
  rcases mem_slotEvents.mp hse with ⟨hv, heq | heq⟩
  · subst heq
    refine ⟨r, hr, hep, s, hs, hsd, hv, hem, ?_⟩
    by_contra hge
    push_neg at hge
    have hstop : (⟨endM s, EventType.stop, r.id⟩ : Event) ∈ dateEvents rs d :=
      mem_dateEvents.mpr ⟨r, hr, s, hs, hsd,
        mem_slotEvents.mpr ⟨hv, Or.inr rfl⟩⟩
    exact hall _ hstop hep rfl ⟨startM_lt_endM hv, hge⟩
  · subst heq
    exact EventType.noConfusion het

theorem available_startNoStop {rs : List ParticipantAvailability} {d : String}
    {m : Nat} {p : String} (hni : noInteriorEnd rs)
    (h : availableAt rs d m p) : startNoStop (dateEvents rs d) m p := by
  rcases h with ⟨r, hr, hid, s, hs, hsd, hv, hsm, hme⟩
  refine ⟨⟨startM s, EventType.start, r.id⟩,
    mem_dateEvents.mpr ⟨r, hr, s, hs, hsd,
      mem_slotEvents.mpr ⟨hv, Or.inl rfl⟩⟩,
    hid, rfl, hsm, ?_⟩
  rintro e' he' hep het ⟨hlt, hem⟩
  rcases mem_dateEvents.mp he' with ⟨r₂, hr₂, s₂, hs₂, hsd₂, hse₂⟩
  rcases mem_slotEvents.mp hse₂ with ⟨hv₂, heq | heq⟩
  · subst heq
    exact EventType.noConfusion het
  · subst heq
    exact hni r hr r₂ hr₂ (hid.trans hep.symm) s hs s₂ hs₂
      (hsd.trans hsd₂.symm) hv hv₂ ⟨hlt, lt_of_le_of_lt hem hme⟩

theorem available_future {rs : List ParticipantAvailability} {d : String}
    {m : Nat} {p : String} (h : availableAt rs d m p) :
    ∃ e ∈ dateEvents rs d, m < e.minutes := by
  rcases h with ⟨r, hr, _, s, hs, hsd, hv, _, hme⟩
  exact ⟨⟨endM s, EventType.stop, r.id⟩,
    mem_dateEvents.mpr ⟨r, hr, s, hs, hsd,
      mem_slotEvents.mpr ⟨hv, Or.inr rfl⟩⟩, hme⟩

theorem covSeg_timeline_iff_available (rs : List ParticipantAvailability)
    (d : String) (m : Nat) (p : String) (hni : noInteriorEnd rs) :
    covSeg (timelineSegments rs d) m p ↔ availableAt rs d m p := by
  rw [timelineSegments_eq_sweep, cov_iff_startNoStop]
  constructor
  · rintro ⟨hs, _⟩
    exact startNoStop_available hs
  · intro h
    exact ⟨available_startNoStop hni h, available_future h⟩

theorem covered_unique {segs : List TimelineSegment}
    (hchain : segs.Pairwise (fun a b => a.endMinutes ≤ b.startMinutes))
    {seg seg' : TimelineSegment} (h1 : seg ∈ segs) (h2 : seg' ∈ segs)
    {m : Nat} (hc1 : seg.startMinutes ≤ m ∧ m < seg.endMinutes)
    (hc2 : seg'.startMinutes ≤ m ∧ m < seg'.endMinutes) : seg = seg' := by
  induction segs with
  | nil => cases h1
  | cons a t ih =>
      rcases List.pairwise_cons.mp hchain with ⟨ha, ht⟩
      rcases List.mem_cons.mp h1 with rfl | h1'
      · rcases List.mem_cons.mp h2 with rfl | h2'
        · rfl
        · exact absurd (lt_of_lt_of_le hc1.2 ((ha seg' h2').trans hc2.1))
            (lt_irrefl m)
      · rcases List.mem_cons.mp h2 with rfl | h2'
        · exact absurd (lt_of_lt_of_le hc2.2 ((ha seg h1').trans hc1.1))
            (lt_irrefl m)
        · exact ih ht h1' h2'

theorem segCovered_iff_exists_p (rs : List ParticipantAvailability)
    (d : String) (m : Nat) :
    segCovered (timelineSegments rs d) m ↔
      ∃ p, covSeg (timelineSegments rs d) m p := by
  constructor
  · rintro ⟨seg, hmem, h1, h2⟩
    have hne := ((timelineSegments_inv rs d).1 seg hmem).2
    rcases List.exists_mem_of_ne_nil _ hne with ⟨p, hp⟩
    exact ⟨p, seg, hmem, h1, h2, hp⟩
  · rintro ⟨p, seg, hmem, h1, h2, _⟩
    exact ⟨seg, hmem, h1, h2⟩

theorem slotCovered_iff_exists_p (rs : List ParticipantAvailability)
    (d : String) (m : Nat) :
    slotCovered rs d m ↔ ∃ p, availableAt rs d m p := by
  constructor
  · rintro ⟨r, hr, s, hs, h⟩
    exact ⟨r.id, r, hr, rfl, s, hs, h⟩
  · rintro ⟨p, r, hr, _, s, hs, h⟩
    exact ⟨r, hr, s, hs, h⟩

/-! ### Claim theorems for the Timeline Builder -/

/-- C1 counterexample: a participant with the back-to-back slots
09:00–10:00 and 10:00–11:00 covers `[540, 660)` with the constant
participant set `{P1}`, yet `buildTimeline` splits that run into two
adjacent segments with identical participant sets — so maximal runs of a
constant participant set ARE split, contrary to the claim. -/
theorem c1_counterexample :
    buildTimeline [⟨"P1", [⟨"2024-03-10", "09:00", "10:00"⟩,
        ⟨"2024-03-10", "10:00", "11:00"⟩]⟩] =
      [("2024-03-10", [⟨540, 600, ["P1"]⟩, ⟨600, 660, ["P1"]⟩])] := by decide

/-- C1 (amended): provided no participant has a slot whose end falls
strictly inside another of their own valid slots on the same date
(`noInteriorEnd`), the segments partition the covered minutes into runs
with a constant participant set: on every minute a segment covers, its
`participantIds` is exactly the set of participants available then.
Maximality is not guaranteed — adjacent segments may carry equal sets,
as the counterexample shows. -/
theorem c1_amended_constant_sets (rs : List ParticipantAvailability)
    (d : String) (m : Nat) (p : String) (seg : TimelineSegment)
    (hni : noInteriorEnd rs) (hseg : seg ∈ timelineSegments rs d)
    (h1 : seg.startMinutes ≤ m) (h2 : m < seg.endMinutes) :
    p ∈ seg.participantIds ↔ availableAt rs d m p := by
  constructor
  · intro hp
    exact (covSeg_timeline_iff_available rs d m p hni).mp ⟨seg, hseg, h1, h2, hp⟩
  · intro ha
    rcases (covSeg_timeline_iff_available rs d m p hni).mpr ha with
      ⟨seg', hseg', h1', h2', hp'⟩
    have heq := covered_unique (timelineSegments_inv rs d).2 hseg' hseg
      ⟨h1', h2'⟩ ⟨h1, h2⟩
    exact heq ▸ hp'

/-- C1 witness: the amended attribution theorem applied at minute 585 of
Scenario A's overlap segment. -/
theorem c1_witness :
    ("P2" ∈ (⟨570, 600, ["P1", "P2"]⟩ : TimelineSegment).participantIds ↔
      availableAt [⟨"P1", [⟨"2024-03-10", "09:00", "10:00"⟩]⟩,
        ⟨"P2", [⟨"2024-03-10", "09:30", "10:30"⟩]⟩] "2024-03-10" 585 "P2") :=
  c1_amended_constant_sets
    [⟨"P1", [⟨"2024-03-10", "09:00", "10:00"⟩]⟩,
      ⟨"P2", [⟨"2024-03-10", "09:30", "10:30"⟩]⟩]
    "2024-03-10" 585 "P2" ⟨570, 600, ["P1", "P2"]⟩
    (by decide) (by decide) (by decide) (by decide)

/-- C2 counterexample: a zero-length slot (`startTime == endTime`) is NOT
excluded from `aggregateSlots` — an AggregatedSlot is created for it. -/
theorem c2_counterexample :
    aggregateSlots [⟨"P1", [⟨"2024-03-12", "09:00", "09:00"⟩]⟩] =
      [⟨"2024-03-12", "09:00", "09:00", ["P1"]⟩] := by decide

/-- C2 (amended): a slot with `startTime == endTime` is excluded entirely
from `buildTimeline` (removing all such slots leaves the whole timeline
unchanged, so they contribute no events to any segment), but
`aggregateSlots` creates an AggregatedSlot for it like for any other
slot (see the counterexample). -/
theorem c2_amended_timeline_drops_zero_length
    (rs : List ParticipantAvailability) :
    buildTimeline (dropZeroLength rs) = buildTimeline rs := by
  unfold buildTimeline
  rw [collectEvents_dropZeroLength]

/-- C3 counterexample: with the self-overlapping slots 09:00–11:00 and
09:00–10:00 of one participant, minute 630 is covered by a valid input
slot but by no emitted segment — coverage is lost, so the two unions
differ. -/
theorem c3_counterexample :
    slotCovered [⟨"P1", [⟨"2024-03-11", "09:00", "11:00"⟩,
        ⟨"2024-03-11", "09:00", "10:00"⟩]⟩] "2024-03-11" 630 ∧
      ¬ segCovered (timelineSegments
        [⟨"P1", [⟨"2024-03-11", "09:00", "11:00"⟩,
          ⟨"2024-03-11", "09:00", "10:00"⟩]⟩] "2024-03-11") 630 := by decide

/-- C3 (amended): provided no participant has a slot whose end falls
strictly inside another of their own valid slots on the same date
(`noInteriorEnd`), the union of `[startMinutes, endMinutes)` over the
emitted segments of every date equals the union of the valid input slot
ranges for that date: a minute is covered by a segment exactly when it
is covered by a valid slot. -/
theorem c3_amended_coverage (rs : List ParticipantAvailability)
    (d : String) (m : Nat) (hni : noInteriorEnd rs) :
    segCovered (timelineSegments rs d) m ↔ slotCovered rs d m := by
  rw [segCovered_iff_exists_p, slotCovered_iff_exists_p]
  exact exists_congr (fun p => covSeg_timeline_iff_available rs d m p hni)

/-- C3 witness: coverage equality applied at minute 570 of a one-slot
input. -/
theorem c3_witness :
    segCovered (timelineSegments
        [⟨"P1", [⟨"2024-03-14", "09:00", "10:00"⟩]⟩] "2024-03-14") 570 ↔
      slotCovered [⟨"P1", [⟨"2024-03-14", "09:00", "10:00"⟩]⟩]
        "2024-03-14" 570 :=
  c3_amended_coverage [⟨"P1", [⟨"2024-03-14", "09:00", "10:00"⟩]⟩]
    "2024-03-14" 570 (by decide)

/-- C4: for every input list and every date, the segments `buildTimeline`
produces for that date are pairwise non-overlapping (each ends at or
before any later one begins) and sorted by `startMinutes` strictly
ascending. -/
theorem c4_segments_disjoint_sorted (rs : List ParticipantAvailability)
    (d : String) :
    (timelineSegments rs d).Pairwise
      (fun a b => a.endMinutes ≤ b.startMinutes ∧
        a.startMinutes < b.startMinutes) := by
  rcases timelineSegments_inv rs d with ⟨hgood, hchain⟩
  exact hchain.imp_of_mem (fun ha hb h =>
    ⟨h, lt_of_lt_of_le (hgood _ ha).1 h⟩)

/-- C5: the event comparator orders end events strictly before start
events at equal minutes, and consequently Scenario B (P1 09:00–10:00,
P2 10:00–11:00) yields exactly the two adjacent single-participant
segments, with no zero-width or merged multi-participant segment. -/
theorem c5_tiebreak_scenarioB :
    (∀ (m : Nat) (p q : String),
        eventLE ⟨m, EventType.stop, p⟩ ⟨m, EventType.start, q⟩ = true ∧
        eventLE ⟨m, EventType.start, p⟩ ⟨m, EventType.stop, q⟩ = false) ∧
      buildTimeline [⟨"P1", [⟨"2024-03-10", "09:00", "10:00"⟩]⟩,
          ⟨"P2", [⟨"2024-03-10", "10:00", "11:00"⟩]⟩] =
        [("2024-03-10", [⟨540, 600, ["P1"]⟩, ⟨600, 660, ["P2"]⟩])] := by
  refine ⟨fun m p q => ⟨?_, ?_⟩, by decide⟩
  · simp [eventLE]
  · simp [eventLE]

/-- C9: every emitted segment has strictly positive width and a
non-empty participant list. -/
theorem c9_segments_positive_nonempty (rs : List ParticipantAvailability)
    (d : String) :
    ∀ seg ∈ timelineSegments rs d,
      seg.startMinutes < seg.endMinutes ∧ seg.participantIds ≠ [] :=
  (timelineSegments_inv rs d).1

/-- C9 witness: the invariant at the single segment of a one-slot
input. -/
theorem c9_witness :
    (⟨540, 600, ["P1"]⟩ : TimelineSegment) ∈
        timelineSegments [⟨"P1", [⟨"2024-03-15", "09:00", "10:00"⟩]⟩]
          "2024-03-15" ∧
      ((540 : Nat) < 600 ∧ (["P1"] : List String) ≠ []) :=
  ⟨by decide, c9_segments_positive_nonempty
    [⟨"P1", [⟨"2024-03-15", "09:00", "10:00"⟩]⟩] "2024-03-15"
    ⟨540, 600, ["P1"]⟩ (by decide)⟩

/-! ### The aggregation map: per-key characterization -/

/-- The `(id, slot)` pairs of a response list, in processing order. -/
def slotPairs (rs : List ParticipantAvailability) :
    List (String × AvailabilitySlot) :=
  rs.flatMap (fun r => r.slots.map (fun s => (r.id, s)))

/-- What one processed pair does to the map entry of its own key. -/
def aggCombine (o : Option AggregatedSlot) (rid : String)
    (s : AvailabilitySlot) : Option AggregatedSlot :=
  match o with
  | some v => some { v with participantIds := v.participantIds ++ [rid] }
  | none => some ⟨s.date, s.startTime, s.endTime, [rid]⟩

/-- Folding the aggregation step over a flat pair list. -/
def aggFoldPairs (m : List (String × AggregatedSlot))
    (ps : List (String × AvailabilitySlot)) : List (String × AggregatedSlot) :=
  ps.foldl (fun m q => aggStep m q.fst q.snd) m

theorem getEntry_aggStep (m : List (String × AggregatedSlot)) (rid : String)
    (s : AvailabilitySlot) (k : String) :
    getEntry (aggStep m rid s) k =
      if slotKey s = k then aggCombine (getEntry m k) rid s
      else getEntry m k := by
  unfold aggStep
  by_cases hk : slotKey s = k
  · subst hk
    cases hget : getEntry m (slotKey s) with
    | none => simp [hget, getEntry_setEntry_self, aggCombine]
    | some existing => simp [hget, getEntry_setEntry_self, aggCombine]
  · cases hget : getEntry m (slotKey s) with
    | none => simp [hget, getEntry_setEntry_ne _ _ hk, hk]
    | some existing => simp [hget, getEntry_setEntry_ne _ _ hk, hk]

theorem getEntry_aggFoldPairs (ps : List (String × AvailabilitySlot))
    (m : List (String × AggregatedSlot)) (k : String) :
    getEntry (aggFoldPairs m ps) k =
      (ps.filter (fun q => slotKey q.snd = k)).foldl
        (fun o q => aggCombine o q.fst q.snd) (getEntry m k) := by
  induction ps generalizing m with
  | nil => rfl
  | cons q ps ih =>
      show getEntry (aggFoldPairs (aggStep m q.fst q.snd) ps) k = _
      rw [ih, getEntry_aggStep]
      by_cases hk : slotKey q.snd = k
      · rw [if_pos hk, List.filter_cons, if_pos (by simpa using hk),
          List.foldl_cons]
      · rw [if_neg hk, List.filter_cons, if_neg (by simpa using hk)]

theorem aggCombine_fold_some (qs : List (String × AvailabilitySlot))
    (v : AggregatedSlot) :
    qs.foldl (fun o q => aggCombine o q.fst q.snd) (some v) =
      some { v with participantIds := v.participantIds ++ qs.map Prod.fst } := by
  induction qs generalizing v with
  | nil => simp
  | cons q qs ih =>
      rw [List.foldl_cons]
      show qs.foldl _ (some { v with participantIds := v.participantIds ++ [q.fst] }) = _
      rw [ih]
      simp

theorem aggCombine_fold_none (q0 : String × AvailabilitySlot)
    (qs : List (String × AvailabilitySlot)) :
    (q0 :: qs).foldl (fun o q => aggCombine o q.fst q.snd) none =
      some ⟨q0.snd.date, q0.snd.startTime, q0.snd.endTime,
        (q0 :: qs).map Prod.fst⟩ := by
  rw [List.foldl_cons]
  show qs.foldl (fun o q => aggCombine o q.fst q.snd)
      (some (AggregatedSlot.mk q0.snd.date q0.snd.startTime q0.snd.endTime
        [q0.fst])) = _
  rw [aggCombine_fold_some]
  simp

theorem aggMap_eq_foldPairs (rs : List ParticipantAvailability)
    (m : List (String × AggregatedSlot)) :
    rs.foldl (fun m r => r.slots.foldl (fun m s => aggStep m r.id s) m) m =
      aggFoldPairs m (slotPairs rs) := by
  induction rs generalizing m with
  | nil => rfl
  | cons r rest ih =>
      rw [List.foldl_cons, ih]
      unfold aggFoldPairs slotPairs
      rw [List.flatMap_cons, List.foldl_append, List.foldl_map]

/-- The entry the aggregation map finally holds for key `k`. -/
theorem getEntry_aggMap (rs : List ParticipantAvailability) (k : String) :
    getEntry
        (rs.foldl (fun m r => r.slots.foldl (fun m s => aggStep m r.id s) m)
          ([] : List (String × AggregatedSlot))) k =
      match (slotPairs rs).filter (fun q => slotKey q.snd = k) with
      | [] => none
      | q0 :: _ => some (AggregatedSlot.mk q0.snd.date q0.snd.startTime
          q0.snd.endTime
          (((slotPairs rs).filter (fun q => slotKey q.snd = k)).map Prod.fst)) := by
  rw [aggMap_eq_foldPairs, getEntry_aggFoldPairs]
  cases hf : (slotPairs rs).filter (fun q => slotKey q.snd = k) with
  | nil => rfl
  | cons q0 qs =>
      show (q0 :: qs).foldl _ (getEntry ([] : List (String × AggregatedSlot)) k) = _
      show (q0 :: qs).foldl _ none = _
      rw [aggCombine_fold_none]

theorem mem_keys_setEntry {α : Type} (m : List (String × α)) (k k' : String)
    (v : α) :
    k' ∈ (setEntry m k v).map Prod.fst ↔ k' ∈ m.map Prod.fst ∨ k' = k := by
  induction m with
  | nil => simp [setEntry]
  | cons e rest ih =>
      cases e with
      | mk k'' w =>
          by_cases h : k'' = k
          · subst h
            simp [setEntry]
            tauto
          · simp [setEntry, h, ih]
            tauto

theorem setEntry_keys_nodup {α : Type} {m : List (String × α)}
    (h : (m.map Prod.fst).Nodup) (k : String) (v : α) :
    ((setEntry m k v).map Prod.fst).Nodup := by
  induction m with
  | nil => simp [setEntry]
  | cons e rest ih =>
      cases e with
      | mk k'' w =>
          rw [List.map_cons, List.nodup_cons] at h
          by_cases hk : k'' = k
          · subst hk
            simpa [setEntry, List.nodup_cons] using h
          · rw [show setEntry ((k'', w) :: rest) k v =
                (k'', w) :: setEntry rest k v by simp [setEntry, hk]]
            rw [List.map_cons, List.nodup_cons]
            refine ⟨?_, ih h.2⟩
            intro hmem
            rcases (mem_keys_setEntry rest k k'' v).mp hmem with h' | h'
            · exact h.1 h'
            · exact hk h'

theorem aggStep_eq_some {m : List (String × AggregatedSlot)} {rid : String}
    {s : AvailabilitySlot} {existing : AggregatedSlot}
    (h : getEntry m (slotKey s) = some existing) :
    aggStep m rid s = setEntry m (slotKey s)
      { existing with participantIds := existing.participantIds ++ [rid] } := by
  unfold aggStep
  simp only [h]

theorem aggStep_eq_none {m : List (String × AggregatedSlot)} {rid : String}
    {s : AvailabilitySlot} (h : getEntry m (slotKey s) = none) :
    aggStep m rid s =
      setEntry m (slotKey s) ⟨s.date, s.startTime, s.endTime, [rid]⟩ := by
  unfold aggStep
  simp only [h]

theorem aggFoldPairs_keys_nodup (ps : List (String × AvailabilitySlot))
    (m : List (String × AggregatedSlot)) (h : (m.map Prod.fst).Nodup) :
    ((aggFoldPairs m ps).map Prod.fst).Nodup := by
  induction ps generalizing m with
  | nil => exact h
  | cons q ps ih =>
      show ((aggFoldPairs (aggStep m q.fst q.snd) ps).map Prod.fst).Nodup
      apply ih
      cases hget : getEntry m (slotKey q.snd) with
      | none =>
          rw [aggStep_eq_none hget]
          exact setEntry_keys_nodup h _ _
      | some existing =>
          rw [aggStep_eq_some hget]
          exact setEntry_keys_nodup h _ _

theorem mem_of_getEntry {α : Type} {m : List (String × α)} {k : String}
    {v : α} (h : getEntry m k = some v) : (k, v) ∈ m := by
  induction m with
  | nil => cases h
  | cons e rest ih =>
      cases e with
      | mk k' w =>
          unfold getEntry at h
          split at h
          · rename_i heq
            cases h
            subst heq
            exact List.mem_cons_self _ _
          · exact List.mem_cons_of_mem _ (ih h)

theorem getEntry_of_mem {α : Type} {m : List (String × α)}
    (hnd : (m.map Prod.fst).Nodup) {k : String} {v : α}
    (h : (k, v) ∈ m) : getEntry m k = some v := by
  induction m with
  | nil => cases h
  | cons e rest ih =>
      cases e with
      | mk k' w =>
          rw [List.map_cons, List.nodup_cons] at hnd
          rcases List.mem_cons.mp h with heq | hmem
          · cases heq
            unfold getEntry
            rw [if_pos rfl]
          · unfold getEntry
            split
            · rename_i heq
              subst heq
              exact absurd (List.mem_map_of_mem Prod.fst hmem) hnd.1
            · exact ih hnd.2 hmem

theorem mem_values_iff_getEntry {α : Type} {m : List (String × α)}
    (hnd : (m.map Prod.fst).Nodup) {v : α} :
    v ∈ m.map Prod.snd ↔ ∃ k, getEntry m k = some v := by
  constructor
  · intro h
    rcases List.mem_map.mp h with ⟨⟨k, v'⟩, hmem, heq⟩
    cases heq
    exact ⟨k, getEntry_of_mem hnd hmem⟩
  · rintro ⟨k, h⟩
    exact List.mem_map.mpr ⟨(k, v), mem_of_getEntry h, rfl⟩

theorem mem_aggregateSlots {rs : List ParticipantAvailability}
    {a : AggregatedSlot} :
    a ∈ aggregateSlots rs ↔
      ∃ k, getEntry
        (rs.foldl (fun m r => r.slots.foldl (fun m s => aggStep m r.id s) m)
          ([] : List (String × AggregatedSlot))) k = some a := by
  unfold aggregateSlots
  rw [(sortBy_perm aggLE _).mem_iff]
  refine mem_values_iff_getEntry ?_
  rw [aggMap_eq_foldPairs]
  exact aggFoldPairs_keys_nodup _ _ (by simp)

theorem mem_slotPairs {rs : List ParticipantAvailability} {pid : String}
    {s : AvailabilitySlot} :
    (pid, s) ∈ slotPairs rs ↔ ∃ r ∈ rs, r.id = pid ∧ s ∈ r.slots := by
  unfold slotPairs
  rw [List.mem_flatMap]
  constructor
  · rintro ⟨r, hr, hmem⟩
    rcases List.mem_map.mp hmem with ⟨s', hs', heq⟩
    cases heq
    exact ⟨r, hr, rfl, hs'⟩
  · rintro ⟨r, hr, rfl, hs⟩
    exact ⟨r, hr, List.mem_map.mpr ⟨s, hs, rfl⟩⟩

theorem sep_append_inj {m1 r1 m2 r2 : List Char}
    (h2 : '_' ∉ m1) (h4 : '_' ∉ m2)
    (h : m1 ++ '_' :: r1 = m2 ++ '_' :: r2) : m1 = m2 ∧ r1 = r2 := by
  induction m1 generalizing m2 with
  | nil =>
      cases m2 with
      | nil => simpa using h
      | cons c m2' =>
          rw [List.nil_append, List.cons_append] at h
          rcases List.cons.inj h with ⟨rfl, _⟩
          exact absurd (List.mem_cons_self _ _) h4
  | cons c m1' ih =>
      cases m2 with
      | nil =>
          rw [List.nil_append, List.cons_append] at h
          rcases List.cons.inj h with ⟨heq, _⟩
          rw [← heq] at h2
          exact absurd (List.mem_cons_self _ _) h2
      | cons c' m2' =>
          rw [List.cons_append, List.cons_append] at h
          obtain ⟨hc, htail⟩ := List.cons.inj h
          subst hc
          have hrec := ih (fun hm => h2 (List.mem_cons_of_mem _ hm))
            (fun hm => h4 (List.mem_cons_of_mem _ hm)) htail
          exact ⟨by rw [hrec.1], hrec.2⟩

theorem slotKey_data (s : AvailabilitySlot) :
    (slotKey s).data =
      s.date.data ++ '_' :: (s.startTime.data ++ '_' :: s.endTime.data) := by
  unfold slotKey
  simp [String.data_append]

theorem slotKey_inj {s t : AvailabilitySlot}
    (hd : '_' ∉ s.date.data) (hst : '_' ∉ s.startTime.data)
    (hd' : '_' ∉ t.date.data) (hst' : '_' ∉ t.startTime.data)
    (h : slotKey s = slotKey t) : s = t := by
  have hdata : (slotKey s).data = (slotKey t).data := by rw [h]
  rw [slotKey_data, slotKey_data] at hdata
  rcases sep_append_inj hd hd' hdata with ⟨h1, h'⟩
  rcases sep_append_inj hst hst' h' with ⟨h2, h3⟩
  cases s with
  | mk d st et =>
      cases t with
      | mk d' st' et' =>
          simp only [AvailabilitySlot.mk.injEq]
          exact ⟨String.ext h1, String.ext h2, String.ext h3⟩

/-- Shorthand for the aggregation map `aggregateSlots` builds before
sorting. -/
def aggMap (rs : List ParticipantAvailability) :
    List (String × AggregatedSlot) :=
  rs.foldl (fun m r => r.slots.foldl (fun m s => aggStep m r.id s) m) []

theorem aggEntry_spec {rs : List ParticipantAvailability} {a : AggregatedSlot}
    (ha : a ∈ aggregateSlots rs) :
    ∃ k q0 qs,
      (slotPairs rs).filter (fun q => slotKey q.snd = k) = q0 :: qs ∧
      q0.snd = ⟨a.date, a.startTime, a.endTime⟩ ∧
      a.participantIds = ((slotPairs rs).filter
        (fun q => slotKey q.snd = k)).map Prod.fst := by
  rcases mem_aggregateSlots.mp ha with ⟨k, hget⟩
  rw [getEntry_aggMap] at hget
  cases hf : (slotPairs rs).filter (fun q => slotKey q.snd = k) with
  | nil =>
      rw [hf] at hget
      cases hget
  | cons q0 qs =>
      simp only [hf] at hget
      cases hget
      exact ⟨k, q0, qs, hf, rfl, by rw [hf]⟩

theorem aggEntry_of_key {rs : List ParticipantAvailability} {k : String}
    {q0 : String × AvailabilitySlot} {qs : List (String × AvailabilitySlot)}
    (hf : (slotPairs rs).filter (fun q => slotKey q.snd = k) = q0 :: qs) :
    (AggregatedSlot.mk q0.snd.date q0.snd.startTime q0.snd.endTime
        ((q0 :: qs).map Prod.fst)) ∈ aggregateSlots rs := by
  apply mem_aggregateSlots.mpr
  refine ⟨k, ?_⟩
  rw [getEntry_aggMap]
  simp only [hf]

theorem count_map_fst (l : List (String × AvailabilitySlot)) (p : String) :
    (l.map Prod.fst).count p =
      (l.filter (fun q => decide (q.fst = p))).length := by
  induction l with
  | nil => rfl
  | cons q l ih =>
      rw [List.map_cons, List.count_cons, List.filter_cons]
      by_cases h : q.fst = p
      · simp [h, ih]
      · simp [h, ih]

/-- Every slot stored in `slotPairs` belongs to some response's list. -/
theorem slotPairs_snd_mem {rs : List ParticipantAvailability}
    {q : String × AvailabilitySlot} (h : q ∈ slotPairs rs) :
    ∃ r ∈ rs, r.id = q.fst ∧ q.snd ∈ r.slots := by
  obtain ⟨pid, s⟩ := q
  exact mem_slotPairs.mp h

theorem aggMap_entry_key {rs : List ParticipantAvailability} {k : String}
    {v : AggregatedSlot} (h : getEntry (aggMap rs) k = some v) :
    slotKey ⟨v.date, v.startTime, v.endTime⟩ = k := by
  unfold aggMap at h
  rw [getEntry_aggMap] at h
  cases hf : (slotPairs rs).filter (fun q => slotKey q.snd = k) with
  | nil =>
      rw [hf] at h
      cases h
  | cons q0 qs =>
      simp only [hf] at h
      cases h
      have hq0 : q0 ∈ (slotPairs rs).filter (fun q => slotKey q.snd = k) := by
        rw [hf]
        exact List.mem_cons_self q0 qs
      exact by simpa using (List.mem_filter.mp hq0).2

/-- The date and startTime fields of every slot are free of the
underscore character the aggregation key uses as separator.  Well-formed
`YYYY-MM-DD` dates and `HH:MM` times always satisfy this. -/
def noUnderscores (rs : List ParticipantAvailability) : Prop :=
  ∀ r ∈ rs, ∀ s ∈ r.slots, '_' ∉ s.date.data ∧ '_' ∉ s.startTime.data

instance (rs : List ParticipantAvailability) :
    Decidable (noUnderscores rs) := by
  unfold noUnderscores
  infer_instance

/-! ### Claim theorems for the Slot Aggregator -/

/-- C7 counterexample: the map key joins the triple with `"_"`, so the
two distinct triples `("a_b","c","")` and `("a","b_c","")` collide on
the key `"a_b_c_"`: only one AggregatedSlot is produced for the two
distinct triples, and `"p2"` is attributed to a triple its own slot list
does not contain. -/
theorem c7_counterexample :
    aggregateSlots [⟨"p1", [⟨"a_b", "c", ""⟩]⟩, ⟨"p2", [⟨"a", "b_c", ""⟩]⟩] =
      [⟨"a_b", "c", "", ["p1", "p2"]⟩] ∧
    (⟨"a_b", "c", ""⟩ : AvailabilitySlot) ∉
      [(⟨"a", "b_c", ""⟩ : AvailabilitySlot)] := by decide

/-- C7 (amended): when no slot's date or startTime contains an
underscore (true of all well-formed `YYYY-MM-DD`/`HH:MM` data, ruling
out key collisions), `aggregateSlots` produces (1) entries whose
`participantIds` contains exactly the participants whose slot list
contains that entry's literal triple, (2) an entry for every triple
occurring in the input, and (3) no two entries with the same triple. -/
theorem c7_amended (rs : List ParticipantAvailability)
    (hu : noUnderscores rs) :
    (∀ a ∈ aggregateSlots rs, ∀ p : String,
        p ∈ a.participantIds ↔
          ∃ r ∈ rs, r.id = p ∧
            (⟨a.date, a.startTime, a.endTime⟩ : AvailabilitySlot) ∈ r.slots) ∧
    (∀ r ∈ rs, ∀ s ∈ r.slots, ∃ a ∈ aggregateSlots rs,
        a.date = s.date ∧ a.startTime = s.startTime ∧ a.endTime = s.endTime) ∧
    (aggregateSlots rs).Pairwise (fun a b =>
        ¬ (a.date = b.date ∧ a.startTime = b.startTime ∧
          a.endTime = b.endTime)) := by
  refine ⟨?_, ?_, ?_⟩
  · intro a ha p
    rcases aggEntry_spec ha with ⟨k, q0, qs, hf, hq0, hids⟩
    have hq0mem : q0 ∈ (slotPairs rs).filter (fun q => slotKey q.snd = k) := by
      rw [hf]
      exact List.mem_cons_self q0 qs
    have hq0pred : slotKey q0.snd = k := by
      simpa using (List.mem_filter.mp hq0mem).2
    have hq0pairs : q0 ∈ slotPairs rs := (List.mem_filter.mp hq0mem).1
    rcases slotPairs_snd_mem hq0pairs with ⟨r0, hr0, _, hs0⟩
    have hu0 := hu r0 hr0 q0.snd hs0
    constructor
    · intro hp
      rw [hids] at hp
      rcases List.mem_map.mp hp with ⟨q, hqmem, hqp⟩
      have hqpred : slotKey q.snd = k := by
        simpa using (List.mem_filter.mp hqmem).2
      have hqpairs : q ∈ slotPairs rs := (List.mem_filter.mp hqmem).1
      rcases slotPairs_snd_mem hqpairs with ⟨r, hr, hidr, hsr⟩
      have huq := hu r hr q.snd hsr
      have hsnd : q.snd = q0.snd :=
        slotKey_inj huq.1 huq.2 hu0.1 hu0.2 (hqpred.trans hq0pred.symm)
      refine ⟨r, hr, hidr.trans hqp, ?_⟩
      rw [← hq0, ← hsnd]
      exact hsr
    · rintro ⟨r, hr, hid, hmem⟩
      have hpair : ((r.id, (⟨a.date, a.startTime, a.endTime⟩ :
          AvailabilitySlot)) : String × AvailabilitySlot) ∈ slotPairs rs :=
        mem_slotPairs.mpr ⟨r, hr, rfl, hmem⟩
      have hkey : slotKey (⟨a.date, a.startTime, a.endTime⟩ :
          AvailabilitySlot) = k := by
        rw [← hq0]
        exact hq0pred
      rw [hids]
      refine List.mem_map.mpr ⟨(r.id, ⟨a.date, a.startTime, a.endTime⟩),
        List.mem_filter.mpr ⟨hpair, by simpa using hkey⟩, hid⟩
  · intro r hr s hs
    have hpair : ((r.id, s) : String × AvailabilitySlot) ∈ slotPairs rs :=
      mem_slotPairs.mpr ⟨r, hr, rfl, hs⟩
    have hmemf : ((r.id, s) : String × AvailabilitySlot) ∈
        (slotPairs rs).filter (fun q => slotKey q.snd = slotKey s) :=
      List.mem_filter.mpr ⟨hpair, by simp⟩
    cases hf : (slotPairs rs).filter (fun q => slotKey q.snd = slotKey s) with
    | nil =>
        rw [hf] at hmemf
        cases hmemf
    | cons q0 qs =>
        have hq0mem : q0 ∈ (slotPairs rs).filter
            (fun q => slotKey q.snd = slotKey s) := by
          rw [hf]
          exact List.mem_cons_self q0 qs
        have hq0pred : slotKey q0.snd = slotKey s := by
          simpa using (List.mem_filter.mp hq0mem).2
        have hq0pairs : q0 ∈ slotPairs rs := (List.mem_filter.mp hq0mem).1
        rcases slotPairs_snd_mem hq0pairs with ⟨r0, hr0, _, hs0⟩
        have hu0 := hu r0 hr0 q0.snd hs0
        have hus := hu r hr s hs
        have hsnd : q0.snd = s := slotKey_inj hu0.1 hu0.2 hus.1 hus.2 hq0pred
        exact ⟨⟨q0.snd.date, q0.snd.startTime, q0.snd.endTime,
          ((q0 :: qs).map Prod.fst)⟩, aggEntry_of_key hf,
          by rw [hsnd], by rw [hsnd], by rw [hsnd]⟩
  · have hnd : ((aggMap rs).map Prod.fst).Nodup := by
      unfold aggMap
      rw [aggMap_eq_foldPairs]
      exact aggFoldPairs_keys_nodup _ _ (by simp)
    have hpair1 : (aggMap rs).Pairwise (fun e1 e2 => e1.fst ≠ e2.fst) :=
      List.pairwise_map.mp hnd
    have hpair2 : (aggMap rs).Pairwise (fun e1 e2 =>
        ¬ (e1.snd.date = e2.snd.date ∧ e1.snd.startTime = e2.snd.startTime ∧
          e1.snd.endTime = e2.snd.endTime)) := by
      refine hpair1.imp_of_mem ?_
      intro e1 e2 h1 h2 hne htr
      have hk1 : slotKey ⟨e1.snd.date, e1.snd.startTime, e1.snd.endTime⟩ =
          e1.fst := aggMap_entry_key (getEntry_of_mem hnd h1)
      have hk2 : slotKey ⟨e2.snd.date, e2.snd.startTime, e2.snd.endTime⟩ =
          e2.fst := aggMap_entry_key (getEntry_of_mem hnd h2)
      apply hne
      rw [← hk1, ← hk2, htr.1, htr.2.1, htr.2.2]
    have hsymm : ∀ {x y : AggregatedSlot},
        (¬ (x.date = y.date ∧ x.startTime = y.startTime ∧
          x.endTime = y.endTime)) →
        ¬ (y.date = x.date ∧ y.startTime = x.startTime ∧
          y.endTime = x.endTime) := by
      intro x y h htr
      exact h ⟨htr.1.symm, htr.2.1.symm, htr.2.2.symm⟩
    have hvals : ((aggMap rs).map Prod.snd).Pairwise (fun a b =>
        ¬ (a.date = b.date ∧ a.startTime = b.startTime ∧
          a.endTime = b.endTime)) :=
      List.pairwise_map.mpr hpair2
    unfold aggregateSlots
    exact ((sortBy_perm aggLE ((aggMap rs).map Prod.snd)).pairwise_iff
      hsymm).mpr hvals

/-- C7 witness: the amended aggregation contract at a one-slot input. -/
theorem c7_witness :
    (∀ a ∈ aggregateSlots [⟨"p1", [⟨"2024-03-16", "09:00", "10:00"⟩]⟩],
        ∀ p : String,
        p ∈ a.participantIds ↔
          ∃ r ∈ [(⟨"p1", [⟨"2024-03-16", "09:00", "10:00"⟩]⟩ :
              ParticipantAvailability)], r.id = p ∧
            (⟨a.date, a.startTime, a.endTime⟩ : AvailabilitySlot) ∈ r.slots) ∧
    (∀ r ∈ [(⟨"p1", [⟨"2024-03-16", "09:00", "10:00"⟩]⟩ :
        ParticipantAvailability)], ∀ s ∈ r.slots,
        ∃ a ∈ aggregateSlots [⟨"p1", [⟨"2024-03-16", "09:00", "10:00"⟩]⟩],
        a.date = s.date ∧ a.startTime = s.startTime ∧ a.endTime = s.endTime) ∧
    (aggregateSlots [⟨"p1", [⟨"2024-03-16", "09:00", "10:00"⟩]⟩]).Pairwise
      (fun a b => ¬ (a.date = b.date ∧ a.startTime = b.startTime ∧
        a.endTime = b.endTime)) :=
  c7_amended [⟨"p1", [⟨"2024-03-16", "09:00", "10:00"⟩]⟩] (by decide)

/-- C8: the list `aggregateSlots` returns is sorted primarily by `date`
and, among equal dates, by `startTime`, in lexicographic string order. -/
theorem c8_output_sorted (rs : List ParticipantAvailability) :
    (aggregateSlots rs).Pairwise (fun a b =>
      a.date < b.date ∨ (a.date = b.date ∧ a.startTime ≤ b.startTime)) := by
  unfold aggregateSlots
  exact (sortBy_pairwise aggLE_total aggLE_trans _).imp
    (fun h => (aggLE_iff.mp h).symm)

/-- C10 counterexample: a key collision makes the literal count wrong —
the triple `("a_b","c","")` occurs `k = 2` times in the participant's
slot array, but because the distinct triple `("a","b_c","")` collides on
the same key, the id appears 3 times, not 2. -/
theorem c10_counterexample :
    aggregateSlots [⟨"p1", [⟨"a_b", "c", ""⟩, ⟨"a_b", "c", ""⟩,
        ⟨"a", "b_c", ""⟩]⟩] =
      [⟨"a_b", "c", "", ["p1", "p1", "p1"]⟩] ∧
    List.count (⟨"a_b", "c", ""⟩ : AvailabilitySlot)
      [(⟨"a_b", "c", ""⟩ : AvailabilitySlot), ⟨"a_b", "c", ""⟩,
        ⟨"a", "b_c", ""⟩] = 2 := by decide

/-- C10 (amended): when no slot's date or startTime contains an
underscore, the number of occurrences of an id `p` in an entry's
`participantIds` equals the total number of occurrences of the entry's
literal triple across the slot arrays of the responses whose id is `p` —
one occurrence per appearance, with no per-participant deduplication. -/
theorem c10_amended (rs : List ParticipantAvailability)
    (hu : noUnderscores rs) (a : AggregatedSlot)
    (ha : a ∈ aggregateSlots rs) (p : String) :
    a.participantIds.count p =
      ((slotPairs rs).filter (fun q => q.fst = p ∧
        q.snd = (⟨a.date, a.startTime, a.endTime⟩ :
          AvailabilitySlot))).length := by
  rcases aggEntry_spec ha with ⟨k, q0, qs, hf, hq0, hids⟩
  have hq0mem : q0 ∈ (slotPairs rs).filter (fun q => slotKey q.snd = k) := by
    rw [hf]
    exact List.mem_cons_self q0 qs
  have hq0pred : slotKey q0.snd = k := by
    simpa using (List.mem_filter.mp hq0mem).2
  have hq0pairs : q0 ∈ slotPairs rs := (List.mem_filter.mp hq0mem).1
  rcases slotPairs_snd_mem hq0pairs with ⟨r0, hr0, _, hs0⟩
  have hu0 := hu r0 hr0 q0.snd hs0
  rw [hids, count_map_fst, List.filter_filter]
  apply congrArg List.length
  apply List.filter_congr
  intro q hq
  rcases slotPairs_snd_mem hq with ⟨r, hr, _, hsr⟩
  have huq := hu r hr q.snd hsr
  have hiff : (slotKey q.snd = k) ↔
      (q.snd = (⟨a.date, a.startTime, a.endTime⟩ : AvailabilitySlot)) := by
    constructor
    · intro hk
      exact (slotKey_inj huq.1 huq.2 hu0.1 hu0.2
        (hk.trans hq0pred.symm)).trans hq0
    · intro he
      rw [he, ← hq0]
      exact hq0pred
  have hktr : slotKey (⟨a.date, a.startTime, a.endTime⟩ :
      AvailabilitySlot) = k := by
    rw [← hq0]
    exact hq0pred
  by_cases h1 : q.fst = p
  · by_cases h2 : slotKey q.snd = k
    · simp [h1, h2, hiff.mp h2, hktr]
    · have h3 : ¬ (q.snd = (⟨a.date, a.startTime, a.endTime⟩ :
          AvailabilitySlot)) := fun he => h2 (hiff.mpr he)
      simp [h1, h2, h3]
  · simp [h1]

/-- C10 witness: the amended count equality at an input whose single
participant submits the same slot twice. -/
theorem c10_witness :
    (AggregatedSlot.mk "2024-03-17" "09:00" "10:00"
        ["p1", "p1"]).participantIds.count "p1" =
      ((slotPairs [⟨"p1", [⟨"2024-03-17", "09:00", "10:00"⟩,
          ⟨"2024-03-17", "09:00", "10:00"⟩]⟩]).filter (fun q =>
        q.fst = "p1" ∧
        q.snd = (⟨(AggregatedSlot.mk "2024-03-17" "09:00" "10:00"
            ["p1", "p1"]).date,
          (AggregatedSlot.mk "2024-03-17" "09:00" "10:00"
            ["p1", "p1"]).startTime,
          (AggregatedSlot.mk "2024-03-17" "09:00" "10:00"
            ["p1", "p1"]).endTime⟩ : AvailabilitySlot))).length :=
  c10_amended [⟨"p1", [⟨"2024-03-17", "09:00", "10:00"⟩,
      ⟨"2024-03-17", "09:00", "10:00"⟩]⟩] (by decide)
    (AggregatedSlot.mk "2024-03-17" "09:00" "10:00" ["p1", "p1"])
    (by decide) "p1"

/-! ### Order-independence of the sweep up to participant-list order -/

/-- Two segments agree up to the order of their participant lists. -/
def segPerm (a b : TimelineSegment) : Prop :=
  a.startMinutes = b.startMinutes ∧ a.endMinutes = b.endMinutes ∧
    a.participantIds.Perm b.participantIds

/-- Two sweep states agree up to the order of their active sets and of
the participant lists inside their emitted segments. -/
def sweepRel (st₁ st₂ : SweepState) : Prop :=
  st₁.active.Perm st₂.active ∧ st₁.prevMinute = st₂.prevMinute ∧
    List.Forall₂ segPerm st₁.segments st₂.segments

theorem forall₂_segPerm_refl (l : List TimelineSegment) :
    List.Forall₂ segPerm l l :=
  List.forall₂_same.mpr fun _ _ => ⟨rfl, rfl, List.Perm.refl _⟩

theorem forall₂_segPerm_symm {l₁ l₂ : List TimelineSegment}
    (h : List.Forall₂ segPerm l₁ l₂) : List.Forall₂ segPerm l₂ l₁ := by
  induction h with
  | nil => exact List.Forall₂.nil
  | cons hab _ ih => exact List.Forall₂.cons ⟨hab.1.symm, hab.2.1.symm, hab.2.2.symm⟩ ih

theorem forall₂_segPerm_trans {l₁ l₂ l₃ : List TimelineSegment}
    (h₁ : List.Forall₂ segPerm l₁ l₂) (h₂ : List.Forall₂ segPerm l₂ l₃) :
    List.Forall₂ segPerm l₁ l₃ := by
  induction h₁ generalizing l₃ with
  | nil =>
      cases h₂
      exact List.Forall₂.nil
  | cons hab _ ih =>
      cases h₂ with
      | cons hbc htail =>
          exact List.Forall₂.cons
            ⟨hab.1.trans hbc.1, hab.2.1.trans hbc.2.1, hab.2.2.trans hbc.2.2⟩
            (ih htail)

theorem sweepRel_refl (st : SweepState) : sweepRel st st :=
  ⟨List.Perm.refl _, rfl, forall₂_segPerm_refl _⟩

theorem sweepRel_symm {st₁ st₂ : SweepState} (h : sweepRel st₁ st₂) :
    sweepRel st₂ st₁ :=
  ⟨h.1.symm, h.2.1.symm, forall₂_segPerm_symm h.2.2⟩

theorem sweepRel_trans {st₁ st₂ st₃ : SweepState} (h₁ : sweepRel st₁ st₂)
    (h₂ : sweepRel st₂ st₃) : sweepRel st₁ st₃ :=
  ⟨h₁.1.trans h₂.1, h₁.2.1.trans h₂.2.1, forall₂_segPerm_trans h₁.2.2 h₂.2.2⟩

theorem forall₂_segPerm_append {l₁ l₂ l₃ l₄ : List TimelineSegment}
    (h₁ : List.Forall₂ segPerm l₁ l₂) (h₂ : List.Forall₂ segPerm l₃ l₄) :
    List.Forall₂ segPerm (l₁ ++ l₃) (l₂ ++ l₄) := by
  induction h₁ with
  | nil => exact h₂
  | cons hab _ ih => exact List.Forall₂.cons hab ih

theorem stepActive_perm {A B : List String} (h : A.Perm B) (e : Event) :
    (stepActive A e).Perm (stepActive B e) := by
  cases ht : e.type with
  | start =>
      rw [stepActive_start ht, stepActive_start ht]
      by_cases hmem : e.participantId ∈ A
      · rw [if_pos hmem, if_pos (h.mem_iff.mp hmem)]
        exact h
      · rw [if_neg hmem, if_neg (fun hb => hmem (h.mem_iff.mpr hb))]
        exact h.append_right _
  | stop =>
      rw [stepActive_stop ht, stepActive_stop ht]
      exact h.erase _

theorem applyEvent_rel {st₁ st₂ : SweepState} (h : sweepRel st₁ st₂)
    (e : Event) : sweepRel (applyEvent st₁ e) (applyEvent st₂ e) := by
  rcases h with ⟨hact, hprev, hsegs⟩
  refine ⟨?_, ?_, ?_⟩
  · rw [applyEvent_active, applyEvent_active]
    exact stepActive_perm hact e
  · rw [applyEvent_prevMinute, applyEvent_prevMinute]
  · rw [applyEvent_segments, applyEvent_segments]
    have hlen : st₁.active.length = st₂.active.length := hact.length_eq
    by_cases hc : st₁.active.length > 0 ∧ e.minutes > st₁.prevMinute
    · rw [if_pos hc, if_pos (by rw [← hlen, ← hprev]; exact hc)]
      exact forall₂_segPerm_append hsegs
        (List.Forall₂.cons ⟨hprev, rfl, hact⟩ List.Forall₂.nil)
    · rw [if_neg hc, if_neg (by rw [← hlen, ← hprev]; exact hc)]
      exact hsegs

theorem foldl_rel {st₁ st₂ : SweepState} (h : sweepRel st₁ st₂)
    (L : List Event) :
    sweepRel (L.foldl applyEvent st₁) (L.foldl applyEvent st₂) := by
  induction L generalizing st₁ st₂ with
  | nil => exact h
  | cons e L ih => exact ih (applyEvent_rel h e)

theorem eventLE_refl (e : Event) : eventLE e e = true := by
  simp [eventLE]

theorem eventLE_mutual {a b : Event} (h₁ : eventLE a b = true)
    (h₂ : eventLE b a = true) : a.minutes = b.minutes ∧ a.type = b.type := by
  rcases eventLE_iff.mp h₁ with h₁ | ⟨hm₁, ht₁⟩ <;>
    rcases eventLE_iff.mp h₂ with h₂ | ⟨hm₂, ht₂⟩
  · omega
  · omega
  · omega
  · refine ⟨hm₁, ?_⟩
    rcases ht₁ with h | h
    · exact h
    · rcases ht₂ with h' | h'
      · exact h'.symm
      · rw [h, h']

theorem stepActive_comm_perm (A : List String) {a b : Event}
    (ht : a.type = b.type) :
    (stepActive (stepActive A a) b).Perm (stepActive (stepActive A b) a) := by
  cases hb : b.type with
  | stop =>
      have ha : a.type = EventType.stop := ht.trans hb
      rw [stepActive_stop ha, stepActive_stop hb, stepActive_stop hb,
        stepActive_stop ha, List.erase_comm]
  | start =>
      have ha : a.type = EventType.start := ht.trans hb
      rw [stepActive_start ha, stepActive_start hb, stepActive_start hb,
        stepActive_start ha]
      by_cases hab : a.participantId = b.participantId
      · rw [hab]
      · by_cases hA : a.participantId ∈ A
        · by_cases hB : b.participantId ∈ A
          · rw [if_pos hA, if_pos hB, if_pos hA]
          · rw [if_pos hA, if_neg hB,
              if_pos (List.mem_append.mpr (Or.inl hA))]
        · by_cases hB : b.participantId ∈ A
          · rw [if_neg hA, if_pos hB,
              if_pos (List.mem_append.mpr (Or.inl hB)), if_neg hA]
          · rw [if_neg hA, if_neg hB,
              if_neg (by simp [List.mem_append, hB, Ne.symm hab]),
              if_neg (by simp [List.mem_append, hA, hab]),
              List.append_assoc, List.append_assoc]
            exact List.Perm.append_left A (List.Perm.swap _ _ _)

theorem applyEvent_segments_congr (st : SweepState) {a b : Event}
    (hm : a.minutes = b.minutes) :
    (applyEvent st a).segments = (applyEvent st b).segments := by
  rw [applyEvent_segments, applyEvent_segments, hm]

theorem applyEvent_twice_segments (st : SweepState) (a b : Event)
    (hm : a.minutes = b.minutes) :
    (applyEvent (applyEvent st a) b).segments = (applyEvent st a).segments := by
  rw [applyEvent_segments (applyEvent st a) b, if_neg]
  rintro ⟨_, hgt⟩
  rw [applyEvent_prevMinute] at hgt
  omega

theorem swap_rel (st : SweepState) {a b : Event}
    (hm : a.minutes = b.minutes) (ht : a.type = b.type) :
    sweepRel (applyEvent (applyEvent st a) b)
      (applyEvent (applyEvent st b) a) := by
  refine ⟨?_, ?_, ?_⟩
  · rw [applyEvent_active, applyEvent_active, applyEvent_active,
      applyEvent_active]
    exact stepActive_comm_perm st.active ht
  · rw [applyEvent_prevMinute, applyEvent_prevMinute]
    exact hm.symm
  · rw [applyEvent_twice_segments st a b hm,
      applyEvent_twice_segments st b a hm.symm,
      applyEvent_segments_congr st hm]
    exact forall₂_segPerm_refl _

theorem bubble_min (S : List Event) (st : SweepState) (x : Event)
    (hx : x ∈ S) (hpair : S.Pairwise (fun a b => eventLE a b = true))
    (hmin : ∀ y ∈ S, eventLE x y = true) :
    sweepRel (S.foldl applyEvent st)
      ((x :: S.erase x).foldl applyEvent st) := by
  induction S generalizing st with
  | nil => cases hx
  | cons y T ih =>
      rcases List.pairwise_cons.mp hpair with ⟨hyT, hTpair⟩
      by_cases hxy : x = y
      · subst hxy
        rw [List.erase_cons_head]
        exact sweepRel_refl _
      · have hxT : x ∈ T := by
          rcases List.mem_cons.mp hx with h | h
          · exact absurd h hxy
          · exact h
        have hle_yx : eventLE y x = true := hyT x hxT
        have hle_xy : eventLE x y = true := hmin y (List.mem_cons_self y T)
        rcases eventLE_mutual hle_xy hle_yx with ⟨hm, ht⟩
        have herase : (y :: T).erase x = y :: T.erase x :=
          List.erase_cons_tail (by simp [Ne.symm hxy])
        rw [herase]
        have h1 : sweepRel ((y :: T).foldl applyEvent st)
            ((y :: x :: T.erase x).foldl applyEvent st) := by
          show sweepRel (T.foldl applyEvent (applyEvent st y))
            ((x :: T.erase x).foldl applyEvent (applyEvent st y))
          exact ih (applyEvent st y) hxT hTpair
            (fun z hz => hmin z (List.mem_cons_of_mem _ hz))
        have h2 : sweepRel ((y :: x :: T.erase x).foldl applyEvent st)
            ((x :: y :: T.erase x).foldl applyEvent st) := by
          show sweepRel ((T.erase x).foldl applyEvent
              (applyEvent (applyEvent st y) x))
            ((T.erase x).foldl applyEvent (applyEvent (applyEvent st x) y))
          exact foldl_rel (swap_rel st hm.symm ht.symm) _
        exact sweepRel_trans h1 h2

theorem sweep_perm_rel {S₁ S₂ : List Event} (hperm : S₁.Perm S₂)
    (h₁ : S₁.Pairwise (fun a b => eventLE a b = true))
    (h₂ : S₂.Pairwise (fun a b => eventLE a b = true))
    {st₁ st₂ : SweepState} (hst : sweepRel st₁ st₂) :
    sweepRel (S₁.foldl applyEvent st₁) (S₂.foldl applyEvent st₂) := by
  induction S₁ generalizing S₂ st₁ st₂ with
  | nil =>
      have h : S₂ = [] := by
        have hlen := hperm.length_eq
        cases S₂ with
        | nil => rfl
        | cons z zs => simp at hlen
      subst h
      exact hst
  | cons x T₁ ih =>
      have hx₂ : x ∈ S₂ := hperm.subset (List.mem_cons_self x T₁)
      have hmin : ∀ y ∈ S₂, eventLE x y = true := by
        intro y hy
        rcases List.mem_cons.mp (hperm.symm.subset hy) with heq | hyT
        · rw [heq]
          exact eventLE_refl x
        · exact (List.pairwise_cons.mp h₁).1 y hyT
      have hbub := bubble_min S₂ st₂ x hx₂ h₂ hmin
      have hTperm : T₁.Perm (S₂.erase x) := by
        have h := hperm.erase x
        rwa [List.erase_cons_head] at h
      have hTpair := (List.pairwise_cons.mp h₁).2
      have hEpair : (S₂.erase x).Pairwise (fun a b => eventLE a b = true) :=
        List.Pairwise.sublist (List.erase_sublist x S₂) h₂
      have hrec := ih hTperm hTpair hEpair (applyEvent_rel hst x)
      exact sweepRel_trans hrec (sweepRel_symm hbub)

theorem sweepDate_perm {l₁ l₂ : List Event} (h : l₁.Perm l₂) :
    List.Forall₂ segPerm (sweepDate l₁) (sweepDate l₂) := by
  have hS : (sortBy eventLE l₁).Perm (sortBy eventLE l₂) :=
    (sortBy_perm eventLE l₁).trans (h.trans (sortBy_perm eventLE l₂).symm)
  have hp₁ := sortBy_pairwise eventLE_total eventLE_trans l₁
  have hp₂ := sortBy_pairwise eventLE_total eventLE_trans l₂
  have hhead : ((((sortBy eventLE l₁).head?).map Event.minutes).getD 0 : Nat) =
      ((((sortBy eventLE l₂).head?).map Event.minutes).getD 0 : Nat) := by
    cases h₁ : sortBy eventLE l₁ with
    | nil =>
        have h₂ : sortBy eventLE l₂ = [] := by
          rw [h₁] at hS
          have hlen := hS.length_eq
          cases hsl : sortBy eventLE l₂ with
          | nil => rfl
          | cons z zs =>
              rw [hsl] at hlen
              simp at hlen
        rw [h₂]
    | cons x T =>
        cases h₂ : sortBy eventLE l₂ with
        | nil =>
            rw [h₁, h₂] at hS
            have hlen := hS.length_eq
            simp at hlen
        | cons y U =>
            rw [h₁] at hp₁
            rw [h₂] at hp₂
            rw [h₁, h₂] at hS
            have hymem : y ∈ x :: T := hS.symm.subset (List.mem_cons_self y U)
            have hxmem : x ∈ y :: U := hS.subset (List.mem_cons_self x T)
            have hle_xy : eventLE x y = true := by
              rcases List.mem_cons.mp hymem with heq | hyT
              · rw [heq]
                exact eventLE_refl x
              · exact (List.pairwise_cons.mp hp₁).1 y hyT
            have hle_yx : eventLE y x = true := by
              rcases List.mem_cons.mp hxmem with heq | hxU
              · rw [heq]
                exact eventLE_refl y
              · exact (List.pairwise_cons.mp hp₂).1 x hxU
            simp only [List.head?_cons, Option.map_some, Option.getD_some]
            exact (eventLE_mutual hle_xy hle_yx).1
  unfold sweepDate
  have hrel : sweepRel
      ⟨[], ((((sortBy eventLE l₁).head?).map Event.minutes).getD 0 : Nat), []⟩
      ⟨[], ((((sortBy eventLE l₂).head?).map Event.minutes).getD 0 : Nat), []⟩ :=
    ⟨List.Perm.refl _, hhead, List.Forall₂.nil⟩
  exact (sweep_perm_rel hS hp₁ hp₂ hrel).2.2

theorem dateEvents_forall₂_perm {rs mid : List ParticipantAvailability}
    (hf : List.Forall₂ (fun a b => a.id = b.id ∧ a.slots.Perm b.slots) rs mid)
    (d : String) : (dateEvents rs d).Perm (dateEvents mid d) := by
  unfold dateEvents
  induction hf with
  | nil => exact List.Perm.refl _
  | cons hab htail ih =>
      rw [List.flatMap_cons, List.flatMap_cons]
      refine List.Perm.append ?_ ih
      rcases hab with ⟨hid, hslots⟩
      rw [hid]
      exact List.Perm.flatMap_right _ (hslots.filter _)

theorem dateEvents_perm {rs rs' : List ParticipantAvailability}
    (h : permutedInput rs rs') (d : String) :
    (dateEvents rs d).Perm (dateEvents rs' d) := by
  rcases h with ⟨mid, hf, hp⟩
  exact (dateEvents_forall₂_perm hf d).trans (List.Perm.flatMap_right _ hp)

/-- C6 counterexample: swapping the two participants of an input (a
permutation) changes the `buildTimeline` output — the shared segment's
`participantIds` comes out in the opposite insertion order, so the
outputs are not identical. -/
theorem c6_counterexample :
    ([(⟨"P2", [⟨"2024-03-13", "14:00", "15:00"⟩]⟩ : ParticipantAvailability),
        ⟨"P1", [⟨"2024-03-13", "14:00", "15:00"⟩]⟩]).Perm
      [⟨"P1", [⟨"2024-03-13", "14:00", "15:00"⟩]⟩,
        ⟨"P2", [⟨"2024-03-13", "14:00", "15:00"⟩]⟩] ∧
    buildTimeline [⟨"P1", [⟨"2024-03-13", "14:00", "15:00"⟩]⟩,
        ⟨"P2", [⟨"2024-03-13", "14:00", "15:00"⟩]⟩] ≠
      buildTimeline [⟨"P2", [⟨"2024-03-13", "14:00", "15:00"⟩]⟩,
        ⟨"P1", [⟨"2024-03-13", "14:00", "15:00"⟩]⟩] := by decide

/-- C6 (amended): `buildTimeline` is deterministic (it is a pure
function of its input), and under any permutation of the participants
and of the slots within each participant, the output agrees for every
date up to the order of ids inside each segment's `participantIds`: the
two runs produce, date by date, the same number of segments with
identical boundaries and permuted participant lists.  (Literal equality
fails: the record's key order and the insertion order inside
`participantIds` follow input order, see the counterexample.) -/
theorem c6_amended_order_independent (rs rs' : List ParticipantAvailability)
    (h : permutedInput rs rs') (d : String) :
    List.Forall₂ segPerm (timelineSegments rs d) (timelineSegments rs' d) := by
  rw [timelineSegments_eq_sweep, timelineSegments_eq_sweep]
  exact sweepDate_perm (dateEvents_perm h d)

/-- C6 witness: the amended order-independence applied to a two
participant input and its swap. -/
theorem c6_witness :
    List.Forall₂ segPerm
      (timelineSegments [⟨"P1", [⟨"2024-03-18", "09:00", "10:00"⟩]⟩,
        ⟨"P2", [⟨"2024-03-18", "09:00", "10:00"⟩]⟩] "2024-03-18")
      (timelineSegments [⟨"P2", [⟨"2024-03-18", "09:00", "10:00"⟩]⟩,
        ⟨"P1", [⟨"2024-03-18", "09:00", "10:00"⟩]⟩] "2024-03-18") :=
  c6_amended_order_independent
    [⟨"P1", [⟨"2024-03-18", "09:00", "10:00"⟩]⟩,
      ⟨"P2", [⟨"2024-03-18", "09:00", "10:00"⟩]⟩]
    [⟨"P2", [⟨"2024-03-18", "09:00", "10:00"⟩]⟩,
      ⟨"P1", [⟨"2024-03-18", "09:00", "10:00"⟩]⟩]
    ⟨[⟨"P1", [⟨"2024-03-18", "09:00", "10:00"⟩]⟩,
        ⟨"P2", [⟨"2024-03-18", "09:00", "10:00"⟩]⟩],
      List.forall₂_same.mpr (fun _ _ => ⟨rfl, List.Perm.refl _⟩),
      by decide⟩ "2024-03-18"
